import Mathlib

/-! # interfacer `generate/std`: precedence, ordering and table assembly

A shallow embedding of `generate/std/main.go` (vendored under
`github.com/mvdan/interfacer`): the package orderer (`byLength`), the
harvesting closure `grabTypes`, the driver `generate` and the table
assembler `prepare`, together with the properties of the design document.

Conventions of the embedding.

* A Go `string` is its sequence of bytes; a byte is a natural number below 256.
  `len` is the list length and `<` is the bytewise lexicographic order.
* A Go `map[string]string` is an association list with pairwise distinct keys.
  The order of the list is one possible enumeration order of `range`; results
  about enumeration quantify over all permutations.
* External collaborators are explicit inputs: the export predicate
  `util.Exported`, the universal scope `types.Universe`, the importer
  `imp.Import`, and the two maps returned by `interfacer.FromScope`.
-/

namespace GenerateStd

/-! ## Go strings -/

/-- A Go string: its bytes, in order. -/
abbrev GoString := List Nat

/-- The bytes of an ASCII literal (one byte per character). -/
def ascii (s : String) : GoString := s.toList.map Char.toNat

/-- Go's `a < b` on strings: bytewise lexicographic comparison. -/
def strLess : GoString → GoString → Bool
  | [], [] => false
  | [], _ :: _ => true
  | _ :: _, [] => false
  | a :: as, b :: bs =>
    if a < b then true else if b < a then false else strLess as bs

/-- The byte `'.'`. -/
def dot : Nat := 46

/-- Go's `strings.Split(s, ".")`: the pieces of `s` between the dots. -/
def splitDot (s : GoString) : List GoString := s.splitOn dot

/-- Go's `strings.HasPrefix(s, p)`. -/
def hasPrefix : GoString → GoString → Bool
  | _, [] => true
  | [], _ :: _ => false
  | a :: as, b :: bs => if a = b then hasPrefix as bs else false

/-- Go's `strings.Contains(s, sub)`: `sub` occurs in `s` at some offset. -/
def stringsContains : GoString → GoString → Bool
  | [], sub => hasPrefix [] sub
  | a :: as, sub => if hasPrefix (a :: as) sub then true else stringsContains as sub

/-! ## `sort.Sort` -/

/-- Insert `x` into a list sorted by `less`, after the elements that are less than it. -/
def insertSorted {α : Type} (less : α → α → Bool) (x : α) : List α → List α
  | [] => [x]
  | y :: ys => if less y x then y :: insertSorted less x ys else x :: y :: ys

/-- Go's `sort.Sort` for a slice with comparison `less`, as an insertion sort.
`sort.Sort` promises a permutation of the slice in which no later element is
less than an earlier one; for the two comparisons of this program such a list
is unique (`sortSort_unique`), so the choice of algorithm does not show. -/
def sortSort {α : Type} (less : α → α → Bool) : List α → List α
  | [] => []
  | x :: xs => insertSorted less x (sortSort less xs)

/-! ## The package orderer -/

/-- `byLength.Less` on the two strings `l[i]`, `l[j]`. -/
def byLengthLess (a b : GoString) : Bool :=
  if a.length = b.length then strLess a b else decide (a.length < b.length)

/-- `sort.Sort(byLength(pkgs))` of `main`: the processing order. -/
def processingOrder (pkgs : List GoString) : List GoString :=
  sortSort byLengthLess pkgs

/-! ## Qualified names -/

/-- `pkgName`: the piece before the first dot, or the empty string when the
name has no dot. -/
def pkgName (fullname : GoString) : GoString :=
  let sp := splitDot fullname
  if sp.length = 1 then [] else sp.headD []

/-- `fullName`: `path + "." + name`, or `name` alone for the empty path. -/
def fullName (path name : GoString) : GoString :=
  if path = [] then name else path ++ [dot] ++ name

/-! ## Go maps -/

/-- A `map[string]string`: its entries, keys pairwise distinct, listed in one
enumeration order. -/
abbrev GoMap := List (GoString × GoString)

/-- The lookup `v, ok := m[k]`. -/
def mapGet : GoMap → GoString → Option GoString
  | [], _ => none
  | (k', v) :: m, k => if k' = k then some v else mapGet m k

/-- The assignment `m[k] = v`: overwrite the entry of `k`, or add one. -/
def mapSet (m : GoMap) (k v : GoString) : GoMap :=
  match mapGet m k with
  | some _ => m.map (fun e => if e.1 = k then (k, v) else e)
  | none => m ++ [(k, v)]

/-! ## The table assembler -/

/-- One row of the table. -/
structure pkgType where
  /-- The signature (field `Type` of the source). -/
  Typ : GoString
  /-- The qualified name. -/
  Path : GoString
  deriving DecidableEq, Repr

/-- The two local maps of `prepare`. They are only indexed, never enumerated,
so each is a total function giving the zero value at an absent key. -/
structure prepareMaps where
  pkgNames : GoString → List GoString
  nameTypes : GoString → GoString

/-- The body of the first loop of `prepare`, for the entry `typestr, fullname`. -/
def prepareStep (st : prepareMaps) (e : GoString × GoString) : prepareMaps :=
  let typestr := e.1
  let fullname := e.2
  let path := pkgName fullname
  { pkgNames := Function.update st.pkgNames path (st.pkgNames path ++ [fullname])
    nameTypes := Function.update st.nameTypes fullname typestr }

/-- The first loop of `prepare` over the entries of `in` as `range` visits them. -/
def prepareLoop (entries : GoMap) : prepareMaps :=
  entries.foldl prepareStep { pkgNames := fun _ => [], nameTypes := fun _ => [] }

/-- Modelled from the spec: `util.ByAlph` of `interfacer/internal/util`, which is
not part of the sources at hand; the table is "alphabetically sorted by
QualifiedName", so its `Less` is Go's string comparison. -/
def byAlphLess (a b : GoString) : Bool := strLess a b

/-- The closure `addNames` of `prepare`, with `result` made explicit. Sorting
the slice of a path in place does not change what a later call for the same
path appends, since sorting a sorted slice gives it back. -/
def addNames (st : prepareMaps) (result : List pkgType) (path : GoString) : List pkgType :=
  let names := sortSort byAlphLess (st.pkgNames path)
  result ++ names.map (fun fullname => { Typ := st.nameTypes fullname, Path := fullname })

/-- `prepare(in, pkgs)`, where `entries` lists `in` in the order `range` visits it. -/
def prepare (entries : GoMap) (pkgs : List GoString) : List pkgType :=
  let st := prepareLoop entries
  pkgs.foldl (addNames st) (addNames st [] [])

/-! ## Harvesting -/

/-- What `interfacer.FromScope` extracts from a scope: the interface map and the
function map (signature to symbol name), each in the order `range` visits it. -/
structure Scope where
  ifs : GoMap
  funs : GoMap

/-- The two registries `ifaces` and `funcs` of `generate`. -/
structure Registries where
  ifaces : GoMap
  funcs : GoMap
  deriving DecidableEq, Repr

/-- The last two statements of a loop body of `grabTypes`: skip the candidate
if its signature is already a key, else record it under `fullName(path, name)`. -/
def recordCandidate (reg : GoMap) (sig path name : GoString) : GoMap :=
  match mapGet reg sig with
  | some _ => reg
  | none => mapSet reg sig (fullName path name)

/-- One loop body of `grabTypes` for the entry `sig, name`. -/
def grabStep (Exported : GoString → Bool) (path : GoString) (all : Bool)
    (reg : GoMap) (e : GoString × GoString) : GoMap :=
  if !all && !Exported e.2 then reg else recordCandidate reg e.1 path e.2

/-- One loop of `grabTypes` over an extracted map. -/
def grabLoop (Exported : GoString → Bool) (path : GoString) (all : Bool)
    (reg : GoMap) (entries : GoMap) : GoMap :=
  entries.foldl (grabStep Exported path all) reg

/-- The closure `grabTypes`, with the registries it updates made explicit. -/
def grabTypes (Exported : GoString → Bool) (r : Registries) (path : GoString)
    (scope : Scope) (all : Bool) : Registries :=
  { ifaces := grabLoop Exported path all r.ifaces scope.ifs
    funcs := grabLoop Exported path all r.funcs scope.funs }

/-- An `error` value. -/
abbrev GoError := GoString

/-- The path `"unsafe"`. -/
def unsafePath : GoString := ascii "unsafe"

/-- The string `"internal"`. -/
def internalStr : GoString := ascii "internal"

/-- The two `continue` guards of the package loop of `generate`. -/
def skipped (path : GoString) : Bool :=
  if path = unsafePath then true
  else if stringsContains path internalStr then true
  else false

/-- The package loop of `generate`: `imp` is `imp.Import`, giving the extracted
scope of a package or an error. -/
def harvestPkgs (Exported : GoString → Bool) (imp : GoString → Except GoError Scope) :
    Registries → List GoString → Except GoError Registries
  | r, [] => .ok r
  | r, path :: rest =>
    if path = unsafePath then harvestPkgs Exported imp r rest
    else if stringsContains path internalStr then harvestPkgs Exported imp r rest
    else
      match imp path with
      | .error err => .error err
      | .ok scope => harvestPkgs Exported imp (grabTypes Exported r path scope false) rest

/-- Lines 108 to 145 of `generate`: both registries start empty, the universal
scope `types.Universe` is harvested with `all = true`, then the packages. -/
def harvest (Exported : GoString → Bool) (universal : Scope)
    (imp : GoString → Except GoError Scope) (pkgs : List GoString) :
    Except GoError Registries :=
  harvestPkgs Exported imp (grabTypes Exported { ifaces := [], funcs := [] } [] universal true) pkgs

/-- The value handed to `tmpl.Execute`. -/
structure Table where
  Pkgs : List GoString
  Ifaces : List pkgType
  Funcs : List pkgType
  deriving DecidableEq

/-- `generate`: the table handed to the template, or the error returned before
the template is executed. `rangeOrder` gives the order in which `range` visits
a registry inside `prepare`. -/
def generate (Exported : GoString → Bool) (universal : Scope)
    (imp : GoString → Except GoError Scope) (rangeOrder : GoMap → GoMap)
    (pkgs : List GoString) : Except GoError Table :=
  match harvest Exported universal imp pkgs with
  | .error err => .error err
  | .ok r =>
    .ok { Pkgs := pkgs
          Ifaces := prepare (rangeOrder r.ifaces) pkgs
          Funcs := prepare (rangeOrder r.funcs) pkgs }

/-- Lines 167 to 178 of `main`: the lines read are sorted with `byLength` and
handed to `generate`. -/
def mainRun (Exported : GoString → Bool) (universal : Scope)
    (imp : GoString → Except GoError Scope) (rangeOrder : GoMap → GoMap)
    (lines : List GoString) : Except GoError Table :=
  generate Exported universal imp rangeOrder (processingOrder lines)

/-- The package loop of `generate` as one registry sees it: `sel` picks the
extracted map (`Scope.ifs` for `ifaces`, `Scope.funs` for `funcs`). -/
def harvestReg (Exported : GoString → Bool) (imp : GoString → Except GoError Scope)
    (sel : Scope → GoMap) : GoMap → List GoString → Except GoError GoMap
  | reg, [] => .ok reg
  | reg, path :: rest =>
    if skipped path then harvestReg Exported imp sel reg rest
    else
      match imp path with
      | .error err => .error err
      | .ok scope =>
        harvestReg Exported imp sel (grabLoop Exported path false reg (sel scope)) rest

/-- The symbol names of an extracted map are Go identifiers, so dot-free, and
each of them names one entry of the map. -/
def identNames (m : GoMap) : Prop :=
  (∀ e ∈ m, dot ∉ e.2) ∧ (m.map Prod.snd).Nodup

/-- The entry `S, q` was taken from a package of the list that is neither
`unsafe` nor has `internal` in its path. -/
def fromIncluded (imp : GoString → Except GoError Scope) (sel : Scope → GoMap)
    (pkgs : List GoString) (S q : GoString) : Prop :=
  ∃ p scope n, p ∈ pkgs ∧ p ≠ unsafePath ∧ stringsContains p internalStr = false ∧
    imp p = .ok scope ∧ (S, n) ∈ sel scope ∧ q = fullName p n

/-- The entry `S, q` was taken from an exported symbol of a package of the list. -/
def fromExported (Exported : GoString → Bool) (imp : GoString → Except GoError Scope)
    (sel : Scope → GoMap) (pkgs : List GoString) (S q : GoString) : Prop :=
  ∃ p scope n, p ∈ pkgs ∧ imp p = .ok scope ∧ (S, n) ∈ sel scope ∧
    Exported n = true ∧ q = fullName p n

/-- An entry of a registry as a row of the table. -/
def toRow (e : GoString × GoString) : pkgType := { Typ := e.1, Path := e.2 }

/-- What a call of `generate` leaves behind: the `error` it returns (`none` for
`nil`) and the table the template was executed on, `none` when the template was
never executed and so nothing was written. -/
structure Outcome where
  err : Option GoError
  executed : Option Table
  deriving DecidableEq

/-- `generate` with its last statement `return tmpl.Execute(w, ...)`: `execute`
gives the `error` of `tmpl.Execute` on the sink `w` for a table. -/
def generateOutcome (Exported : GoString → Bool) (universal : Scope)
    (imp : GoString → Except GoError Scope) (rangeOrder : GoMap → GoMap)
    (execute : Table → Option GoError) (pkgs : List GoString) : Outcome :=
  match generate Exported universal imp rangeOrder pkgs with
  | .error err => { err := some err, executed := none }
  | .ok t => { err := execute t, executed := some t }

/-- An entry of a registry with its origin: the signature, the path that owns
the symbol (empty for the universal scope) and the symbol name, as `grabTypes`
has them when it records `fullName(path, name)`. -/
structure Owned where
  sig : GoString
  path : GoString
  name : GoString
  deriving DecidableEq

/-- The registry entry of an owned symbol. -/
def Owned.entry (o : Owned) : GoString × GoString := (o.sig, fullName o.path o.name)

/-! ## Sample inputs -/

/-- An export predicate for ASCII names: the first byte is an upper-case letter. -/
def sampleExported : GoString → Bool
  | [] => false
  | c :: _ => decide (65 ≤ c ∧ c ≤ 90)

/-- A universal scope with one interface, `error`. -/
def sampleUniverse : Scope :=
  { ifs := [(ascii "Error", ascii "error")], funs := [] }

/-- The extracted scope of the sample package `io`; `closer` is not exported
and `Failure` has the signature of the universal `error`. -/
def sampleIo : Scope :=
  { ifs := [(ascii "Read", ascii "Reader"), (ascii "Error", ascii "Failure"),
            (ascii "Close", ascii "closer")]
    funs := [(ascii "func()", ascii "Thunk")] }

/-- The extracted scope of the sample package `os`. -/
def sampleOs : Scope :=
  { ifs := [(ascii "Read", ascii "File"), (ascii "Close", ascii "Handle")]
    funs := [(ascii "func()", ascii "Hook")] }

/-- An importer that resolves `io` and `os` and fails on every other path. -/
def sampleImp (path : GoString) : Except GoError Scope :=
  if path = ascii "io" then .ok sampleIo
  else if path = ascii "os" then .ok sampleOs
  else .error (ascii "cannot import")

/-- An importer for the paths `a` and `a.B`: `a` has the interface `Zed`, every
other path the interface `C`. -/
def sampleImpDotted (path : GoString) : Except GoError Scope :=
  if path = ascii "a" then .ok { ifs := [(ascii "Z()", ascii "Zed")], funs := [] }
  else .ok { ifs := [(ascii "M()", ascii "C")], funs := [] }

/-- The registries after harvesting `sampleUniverse`, then `io`, then `os`. -/
def sampleRegistries : Registries :=
  { ifaces := [(ascii "Error", ascii "error"), (ascii "Read", ascii "io.Reader"),
               (ascii "Close", ascii "os.Handle")]
    funcs := [(ascii "func()", ascii "io.Thunk")] }

/-! ### Facts about the string order -/

theorem strLess_irrefl (a : GoString) : strLess a a = false := by
  induction a with
  | nil => rfl
  | cons x xs ih => simp [strLess, ih]

theorem strLess_asymm : ∀ (a b : GoString), strLess a b = true → strLess b a = false
  | [], [], h => by simp [strLess] at h
  | [], _ :: _, _ => by simp [strLess]
  | _ :: _, [], h => by simp [strLess] at h
  | x :: xs, y :: ys, h => by
    simp only [strLess] at h ⊢
    by_cases hxy : x < y
    · have : ¬ y < x := by omega
      simp [hxy, this]
    · by_cases hyx : y < x
      · simp [hxy, hyx] at h
      · simp [hxy, hyx] at h ⊢
        exact strLess_asymm xs ys h

theorem strLess_trans : ∀ (a b c : GoString),
    strLess a b = true → strLess b c = true → strLess a c = true
  | [], [], _, h, _ => by simp [strLess] at h
  | [], _ :: _, [], _, h => by simp [strLess] at h
  | [], _ :: _, _ :: _, _, _ => by simp [strLess]
  | _ :: _, [], _, h, _ => by simp [strLess] at h
  | _ :: _, _ :: _, [], _, h => by simp [strLess] at h
  | x :: xs, y :: ys, z :: zs, h1, h2 => by
    simp only [strLess] at h1 h2 ⊢
    by_cases hxy : x < y
    · by_cases hyz : y < z
      · have : x < z := by omega
        simp [this]
      · by_cases hzy : z < y
        · simp [hyz, hzy] at h2
        · have : x < z := by omega
          simp [this]
    · by_cases hyx : y < x
      · simp [hxy, hyx] at h1
      · simp [hxy, hyx] at h1
        have hxy' : x = y := by omega
        subst hxy'
        by_cases hxz : x < z
        · simp [hxz]
        · by_cases hzx : z < x
          · simp [hxz, hzx] at h2
          · simp [hxz, hzx] at h2 ⊢
            exact strLess_trans xs ys zs h1 h2

theorem strLess_connex : ∀ (a b : GoString),
    strLess a b = false → strLess b a = false → a = b
  | [], [], _, _ => rfl
  | [], _ :: _, h, _ => by simp [strLess] at h
  | _ :: _, [], _, h => by simp [strLess] at h
  | x :: xs, y :: ys, h1, h2 => by
    simp only [strLess] at h1 h2
    by_cases hxy : x < y
    · simp [hxy] at h1
    · by_cases hyx : y < x
      · simp [hyx] at h2
      · simp [hxy, hyx] at h1 h2
        have hxy' : x = y := by omega
        rw [hxy', strLess_connex xs ys h1 h2]

theorem strLess_le_trans (a b c : GoString)
    (h1 : strLess b a = false) (h2 : strLess c b = false) : strLess c a = false := by
  cases hca : strLess c a with
  | false => rfl
  | true =>
    cases hab : strLess a b with
    | true =>
      have := strLess_trans c a b hca hab
      simp [this] at h2
    | false =>
      have hab' : b = a := strLess_connex b a h1 hab
      subst hab'
      simp [hca] at h2

/-! ### Facts about `sort.Sort` -/

theorem insertSorted_perm {α : Type} (less : α → α → Bool) (x : α) (l : List α) :
    (insertSorted less x l).Perm (x :: l) := by
  induction l with
  | nil => exact List.Perm.refl _
  | cons y ys ih =>
    unfold insertSorted
    split
    · exact ((List.Perm.cons y ih).trans (List.Perm.swap x y ys))
    · exact List.Perm.refl _

theorem sortSort_perm {α : Type} (less : α → α → Bool) (l : List α) :
    (sortSort less l).Perm l := by
  induction l with
  | nil => exact List.Perm.refl _
  | cons x xs ih =>
    exact (insertSorted_perm less x (sortSort less xs)).trans (List.Perm.cons x ih)

theorem insertSorted_sorted {α : Type} (less : α → α → Bool)
    (hasym : ∀ a b, less a b = true → less b a = false)
    (htrans : ∀ a b c, less b a = false → less c b = false → less c a = false)
    (x : α) (l : List α) (hl : l.Pairwise (fun a b => less b a = false)) :
    (insertSorted less x l).Pairwise (fun a b => less b a = false) := by
  induction l with
  | nil => simp [insertSorted]
  | cons y ys ih =>
    rw [List.pairwise_cons] at hl
    unfold insertSorted
    split
    · rename_i hyx
      rw [List.pairwise_cons]
      refine ⟨?_, ih hl.2⟩
      intro z hz
      rcases List.mem_cons.mp ((insertSorted_perm less x ys).mem_iff.mp hz) with hzx | hzy
      · subst hzx
        exact hasym _ _ hyx
      · exact hl.1 z hzy
    · rename_i hyx
      have hyx' : less y x = false := by simpa using hyx
      rw [List.pairwise_cons]
      refine ⟨?_, List.pairwise_cons.mpr hl⟩
      intro z hz
      rcases List.mem_cons.mp hz with hzy | hzys
      · subst hzy
        exact hyx'
      · exact htrans x y z hyx' (hl.1 z hzys)

theorem sortSort_sorted {α : Type} (less : α → α → Bool)
    (hasym : ∀ a b, less a b = true → less b a = false)
    (htrans : ∀ a b c, less b a = false → less c b = false → less c a = false)
    (l : List α) : (sortSort less l).Pairwise (fun a b => less b a = false) := by
  induction l with
  | nil => simp [sortSort]
  | cons x xs ih => exact insertSorted_sorted less hasym htrans x _ ih

/-- A permutation of `l` in which no later element is less than an earlier one
is the list `sortSort` computes, whenever incomparable elements are equal. -/
theorem sortSort_unique {α : Type} (less : α → α → Bool)
    (hasym : ∀ a b, less a b = true → less b a = false)
    (htrans : ∀ a b c, less b a = false → less c b = false → less c a = false)
    (hconn : ∀ a b, less a b = false → less b a = false → a = b)
    (l out : List α) (hperm : out.Perm l)
    (hsorted : out.Pairwise (fun a b => less b a = false)) :
    out = sortSort less l := by
  haveI : IsAntisymm α (fun a b => less b a = false) :=
    ⟨fun a b h1 h2 => hconn a b h2 h1⟩
  exact List.eq_of_perm_of_sorted (hperm.trans (sortSort_perm less l).symm) hsorted
    (sortSort_sorted less hasym htrans l)

/-! ### Facts about `byLength.Less` -/

theorem byLengthLess_false_iff (a b : GoString) :
    byLengthLess b a = false ↔
      a.length < b.length ∨ (a.length = b.length ∧ strLess b a = false) := by
  unfold byLengthLess
  by_cases h : b.length = a.length
  · simp [h]
  · simp [h]
    omega

theorem byLengthLess_asymm (a b : GoString) (h : byLengthLess a b = true) :
    byLengthLess b a = false := by
  rw [byLengthLess_false_iff]
  unfold byLengthLess at h
  by_cases hl : a.length = b.length
  · simp [hl] at h
    exact Or.inr ⟨hl, strLess_asymm a b h⟩
  · simp [hl] at h
    exact Or.inl h

theorem byLengthLess_le_trans (a b c : GoString)
    (h1 : byLengthLess b a = false) (h2 : byLengthLess c b = false) :
    byLengthLess c a = false := by
  rw [byLengthLess_false_iff] at h1 h2 ⊢
  rcases h1 with h1 | ⟨h1, h1'⟩ <;> rcases h2 with h2 | ⟨h2, h2'⟩
  · exact Or.inl (by omega)
  · exact Or.inl (by omega)
  · exact Or.inl (by omega)
  · exact Or.inr ⟨by omega, strLess_le_trans a b c h1' h2'⟩

theorem byLengthLess_connex (a b : GoString)
    (h1 : byLengthLess a b = false) (h2 : byLengthLess b a = false) : a = b := by
  rw [byLengthLess_false_iff] at h1 h2
  rcases h1 with h1 | ⟨_, h1'⟩ <;> rcases h2 with h2 | ⟨_, h2'⟩
  · omega
  · omega
  · omega
  · exact strLess_connex a b h1' h2'

theorem processingOrder_eq_of_perm (l₁ l₂ : List GoString) (h : l₁.Perm l₂) :
    processingOrder l₁ = processingOrder l₂ :=
  sortSort_unique byLengthLess byLengthLess_asymm byLengthLess_le_trans byLengthLess_connex
    l₂ (processingOrder l₁) ((sortSort_perm byLengthLess l₁).trans h)
    (sortSort_sorted byLengthLess byLengthLess_asymm byLengthLess_le_trans l₁)

/-! ### Facts about Go maps -/

theorem mapGet_append (m₁ m₂ : GoMap) (k : GoString) :
    mapGet (m₁ ++ m₂) k = match mapGet m₁ k with
      | some v => some v
      | none => mapGet m₂ k := by
  induction m₁ with
  | nil => simp [mapGet]
  | cons e m ih =>
    obtain ⟨k', v⟩ := e
    by_cases h : k' = k
    · simp [mapGet, h]
    · simp [mapGet, h, ih]

theorem mem_of_mapGet (m : GoMap) (k v : GoString) (h : mapGet m k = some v) :
    (k, v) ∈ m := by
  induction m with
  | nil => simp [mapGet] at h
  | cons e m ih =>
    obtain ⟨k', v'⟩ := e
    by_cases hk : k' = k
    · simp [mapGet, hk] at h
      simp [hk, h]
    · simp [mapGet, hk] at h
      exact List.mem_cons_of_mem _ (ih h)

theorem mapGet_eq_none_iff (m : GoMap) (k : GoString) :
    mapGet m k = none ↔ k ∉ m.map Prod.fst := by
  induction m with
  | nil => simp [mapGet]
  | cons e m ih =>
    obtain ⟨k', v'⟩ := e
    by_cases hk : k' = k
    · simp [mapGet, hk]
    · have hk' : ¬ k = k' := fun h => hk h.symm
      simp [mapGet, hk, hk', ih]

theorem mapGet_of_mem (m : GoMap) (hnd : (m.map Prod.fst).Nodup) (k v : GoString)
    (h : (k, v) ∈ m) : mapGet m k = some v := by
  induction m with
  | nil => simp at h
  | cons e m ih =>
    obtain ⟨k', v'⟩ := e
    rw [List.map_cons, List.nodup_cons] at hnd
    rcases List.mem_cons.mp h with heq | hmem
    · cases heq
      simp [mapGet]
    · have hk : k' ≠ k := by
        intro hk
        apply hnd.1
        rw [hk]
        exact List.mem_map.mpr ⟨(k, v), hmem, rfl⟩
      simp [mapGet, hk, ih hnd.2 hmem]

/-! ### Facts about `grabTypes` -/

theorem recordCandidate_of_none (reg : GoMap) (sig path name : GoString)
    (h : mapGet reg sig = none) :
    recordCandidate reg sig path name = reg ++ [(sig, fullName path name)] := by
  simp [recordCandidate, mapSet, h]

theorem recordCandidate_of_some (reg : GoMap) (sig path name q : GoString)
    (h : mapGet reg sig = some q) : recordCandidate reg sig path name = reg := by
  simp [recordCandidate, h]

/-- One loop body either leaves the registry alone or appends one entry for an
eligible symbol whose signature was not a key. -/
theorem grabStep_cases (Exported : GoString → Bool) (path : GoString) (all : Bool)
    (reg : GoMap) (e : GoString × GoString) :
    grabStep Exported path all reg e = reg ∨
    (mapGet reg e.1 = none ∧ (all = true ∨ Exported e.2 = true) ∧
      grabStep Exported path all reg e = reg ++ [(e.1, fullName path e.2)]) := by
  unfold grabStep
  by_cases hel : (!all && !Exported e.2) = true
  · simp [hel]
  · cases hget : mapGet reg e.1 with
    | some q => simp [hel, recordCandidate_of_some reg e.1 path e.2 q hget]
    | none =>
      right
      refine ⟨rfl, ?_, by simp [hel, recordCandidate_of_none reg e.1 path e.2 hget]⟩
      cases all <;> cases hE : Exported e.2 <;> simp_all

theorem grabStep_of_eligible_absent (Exported : GoString → Bool) (path : GoString)
    (all : Bool) (reg : GoMap) (e : GoString × GoString)
    (hel : all = true ∨ Exported e.2 = true) (hget : mapGet reg e.1 = none) :
    grabStep Exported path all reg e = reg ++ [(e.1, fullName path e.2)] := by
  unfold grabStep
  have : (!all && !Exported e.2) = false := by
    rcases hel with h | h <;> simp [h]
  simp [this, recordCandidate_of_none reg e.1 path e.2 hget]

theorem grabStep_mono (Exported : GoString → Bool) (path : GoString) (all : Bool)
    (reg : GoMap) (e : GoString × GoString) (S q : GoString)
    (h : mapGet reg S = some q) :
    mapGet (grabStep Exported path all reg e) S = some q := by
  rcases grabStep_cases Exported path all reg e with h1 | ⟨_, _, h1⟩
  · rw [h1]; exact h
  · rw [h1, mapGet_append, h]

theorem grabLoop_mono (Exported : GoString → Bool) (path : GoString) (all : Bool)
    (entries reg : GoMap) (S q : GoString) (h : mapGet reg S = some q) :
    mapGet (grabLoop Exported path all reg entries) S = some q := by
  induction entries generalizing reg with
  | nil => exact h
  | cons e es ih =>
    exact ih (grabStep Exported path all reg e) (grabStep_mono Exported path all reg e S q h)

theorem grabStep_origin (Exported : GoString → Bool) (path : GoString) (all : Bool)
    (reg : GoMap) (e : GoString × GoString) (S q : GoString)
    (h : mapGet (grabStep Exported path all reg e) S = some q) :
    mapGet reg S = some q ∨
      (e.1 = S ∧ (all = true ∨ Exported e.2 = true) ∧ q = fullName path e.2) := by
  rcases grabStep_cases Exported path all reg e with h1 | ⟨_, hel, h1⟩
  · rw [h1] at h; exact Or.inl h
  · rw [h1, mapGet_append] at h
    cases hget : mapGet reg S with
    | some q' =>
      rw [hget] at h
      exact Or.inl h
    | none =>
      rw [hget] at h
      right
      by_cases hk : e.1 = S
      · simp [mapGet, hk] at h
        exact ⟨hk, hel, h.symm⟩
      · simp [mapGet, hk] at h

/-- Where an entry of the registry after one loop of `grabTypes` comes from. -/
theorem grabLoop_origin (Exported : GoString → Bool) (path : GoString) (all : Bool)
    (entries reg : GoMap) (S q : GoString)
    (h : mapGet (grabLoop Exported path all reg entries) S = some q) :
    mapGet reg S = some q ∨
      ∃ n, (S, n) ∈ entries ∧ (all = true ∨ Exported n = true) ∧ q = fullName path n := by
  induction entries generalizing reg with
  | nil => exact Or.inl h
  | cons e es ih =>
    rcases ih (grabStep Exported path all reg e) h with h1 | ⟨n, hn, hel, hq⟩
    · rcases grabStep_origin Exported path all reg e S q h1 with h2 | ⟨hk, hel, hq⟩
      · exact Or.inl h2
      · refine Or.inr ⟨e.2, ?_, hel, hq⟩
        rw [← hk]
        exact List.mem_cons_self _ _
    · exact Or.inr ⟨n, List.mem_cons_of_mem _ hn, hel, hq⟩

/-- An eligible symbol whose signature is not yet a key is recorded by the loop
that visits it. -/
theorem grabLoop_records (Exported : GoString → Bool) (path : GoString) (all : Bool)
    (entries reg : GoMap) (hnd : (entries.map Prod.fst).Nodup) (S n : GoString)
    (hmem : (S, n) ∈ entries) (hel : all = true ∨ Exported n = true)
    (hget : mapGet reg S = none) :
    mapGet (grabLoop Exported path all reg entries) S = some (fullName path n) := by
  induction entries generalizing reg with
  | nil => simp at hmem
  | cons e es ih =>
    rw [List.map_cons, List.nodup_cons] at hnd
    rcases List.mem_cons.mp hmem with heq | hmem'
    · subst heq
      have h1 := grabStep_of_eligible_absent Exported path all reg (S, n) hel hget
      refine grabLoop_mono Exported path all es _ S _ ?_
      rw [h1, mapGet_append, hget]
      simp [mapGet]
    · have hk : e.1 ≠ S := by
        intro hk
        apply hnd.1
        rw [hk]
        exact List.mem_map.mpr ⟨(S, n), hmem', rfl⟩
      apply ih (grabStep Exported path all reg e) hnd.2 hmem'
      rcases grabStep_cases Exported path all reg e with h1 | ⟨_, _, h1⟩
      · rw [h1]; exact hget
      · rw [h1, mapGet_append, hget]
        simp [mapGet, hk]

/-- Every eligible symbol of the map a loop has visited has its signature among
the keys afterwards. -/
theorem grabLoop_covers (Exported : GoString → Bool) (path : GoString) (all : Bool)
    (entries reg : GoMap) (S n : GoString)
    (hmem : (S, n) ∈ entries) (hel : all = true ∨ Exported n = true) :
    ∃ q, mapGet (grabLoop Exported path all reg entries) S = some q := by
  induction entries generalizing reg with
  | nil => simp at hmem
  | cons e es ih =>
    rcases List.mem_cons.mp hmem with heq | hmem'
    · subst heq
      cases hget : mapGet reg S with
      | some q =>
        exact ⟨q, grabLoop_mono Exported path all es _ S q
          (grabStep_mono Exported path all reg (S, n) S q hget)⟩
      | none =>
        refine ⟨fullName path n, grabLoop_mono Exported path all es _ S _ ?_⟩
        rw [grabStep_of_eligible_absent Exported path all reg (S, n) hel hget,
          mapGet_append, hget]
        simp [mapGet]
    · exact ih (grabStep Exported path all reg e) hmem'

theorem grabStep_nodupKeys (Exported : GoString → Bool) (path : GoString) (all : Bool)
    (reg : GoMap) (e : GoString × GoString) (hnd : (reg.map Prod.fst).Nodup) :
    ((grabStep Exported path all reg e).map Prod.fst).Nodup := by
  rcases grabStep_cases Exported path all reg e with h1 | ⟨hget, _, h1⟩
  · rw [h1]; exact hnd
  · rw [h1, List.map_append, List.nodup_append]
    refine ⟨hnd, by simp, ?_⟩
    intro a ha hb
    have hb' : a = e.1 := by simpa using hb
    subst hb'
    exact ((mapGet_eq_none_iff reg _).mp hget) ha

theorem grabLoop_nodupKeys (Exported : GoString → Bool) (path : GoString) (all : Bool)
    (entries reg : GoMap) (hnd : (reg.map Prod.fst).Nodup) :
    ((grabLoop Exported path all reg entries).map Prod.fst).Nodup := by
  induction entries generalizing reg with
  | nil => exact hnd
  | cons e es ih =>
    exact ih (grabStep Exported path all reg e) (grabStep_nodupKeys Exported path all reg e hnd)

/-! ### Facts about the package loop -/

theorem skipped_eq_true_iff (path : GoString) :
    skipped path = true ↔ path = unsafePath ∨ stringsContains path internalStr = true := by
  unfold skipped
  by_cases h1 : path = unsafePath
  · simp [h1]
  · by_cases h2 : stringsContains path internalStr = true
    · simp [h2]
    · simp [h1, h2]

theorem harvestReg_cons_skipped (Exported : GoString → Bool)
    (imp : GoString → Except GoError Scope) (sel : Scope → GoMap) (reg : GoMap)
    (path : GoString) (rest : List GoString) (h : skipped path = true) :
    harvestReg Exported imp sel reg (path :: rest) = harvestReg Exported imp sel reg rest := by
  simp [harvestReg, h]

theorem harvestReg_cons_ok (Exported : GoString → Bool)
    (imp : GoString → Except GoError Scope) (sel : Scope → GoMap) (reg : GoMap)
    (path : GoString) (rest : List GoString) (scope : Scope)
    (h : skipped path = false) (hi : imp path = .ok scope) :
    harvestReg Exported imp sel reg (path :: rest)
      = harvestReg Exported imp sel (grabLoop Exported path false reg (sel scope)) rest := by
  simp [harvestReg, h, hi]

theorem harvestReg_cons_error (Exported : GoString → Bool)
    (imp : GoString → Except GoError Scope) (sel : Scope → GoMap) (reg : GoMap)
    (path : GoString) (rest : List GoString) (err : GoError)
    (h : skipped path = false) (hi : imp path = .error err) :
    harvestReg Exported imp sel reg (path :: rest) = .error err := by
  simp [harvestReg, h, hi]

/-- The package loop of `generate`, projected to either registry. -/
theorem harvestPkgs_proj (Exported : GoString → Bool)
    (imp : GoString → Except GoError Scope) (pkgs : List GoString) (r r' : Registries)
    (h : harvestPkgs Exported imp r pkgs = .ok r') :
    harvestReg Exported imp Scope.ifs r.ifaces pkgs = .ok r'.ifaces ∧
    harvestReg Exported imp Scope.funs r.funcs pkgs = .ok r'.funcs := by
  induction pkgs generalizing r with
  | nil =>
    simp only [harvestPkgs, Except.ok.injEq] at h
    subst h
    exact ⟨rfl, rfl⟩
  | cons path rest ih =>
    cases hs : skipped path with
    | true =>
      rw [harvestReg_cons_skipped _ _ _ _ _ _ hs, harvestReg_cons_skipped _ _ _ _ _ _ hs]
      apply ih
      rcases (skipped_eq_true_iff path).mp hs with h1 | h2
      · simpa [harvestPkgs, h1] using h
      · by_cases h1 : path = unsafePath
        · simpa [harvestPkgs, h1] using h
        · simpa [harvestPkgs, h1, h2] using h
    | false =>
      have hs' : ¬ (path = unsafePath ∨ stringsContains path internalStr = true) := by
        rw [← skipped_eq_true_iff, hs]; simp
      have h1 : ¬ path = unsafePath := fun h1 => hs' (Or.inl h1)
      have h2 : ¬ stringsContains path internalStr = true := fun h2 => hs' (Or.inr h2)
      cases hi : imp path with
      | error err => simp [harvestPkgs, h1, h2, hi] at h
      | ok scope =>
        rw [harvestReg_cons_ok _ _ _ _ _ _ scope hs hi,
          harvestReg_cons_ok _ _ _ _ _ _ scope hs hi]
        have h' : harvestPkgs Exported imp (grabTypes Exported r path scope false) rest
            = .ok r' := by
          simpa [harvestPkgs, h1, h2, hi] using h
        exact ih _ h'

/-- The harvesting run of `generate`, projected to either registry. -/
theorem harvest_proj (Exported : GoString → Bool) (universal : Scope)
    (imp : GoString → Except GoError Scope) (pkgs : List GoString) (r : Registries)
    (h : harvest Exported universal imp pkgs = .ok r) :
    harvestReg Exported imp Scope.ifs (grabLoop Exported [] true [] universal.ifs) pkgs
      = .ok r.ifaces ∧
    harvestReg Exported imp Scope.funs (grabLoop Exported [] true [] universal.funs) pkgs
      = .ok r.funcs :=
  harvestPkgs_proj Exported imp pkgs _ r h

theorem harvestReg_append (Exported : GoString → Bool)
    (imp : GoString → Except GoError Scope) (sel : Scope → GoMap)
    (pre post : List GoString) (reg : GoMap) :
    harvestReg Exported imp sel reg (pre ++ post) =
      match harvestReg Exported imp sel reg pre with
      | .ok mid => harvestReg Exported imp sel mid post
      | .error err => .error err := by
  induction pre generalizing reg with
  | nil => simp [harvestReg]
  | cons path rest ih =>
    rw [List.cons_append]
    cases hs : skipped path with
    | true =>
      rw [harvestReg_cons_skipped _ _ _ _ _ _ hs, harvestReg_cons_skipped _ _ _ _ _ _ hs]
      exact ih reg
    | false =>
      cases hi : imp path with
      | error err =>
        rw [harvestReg_cons_error _ _ _ _ _ _ err hs hi,
          harvestReg_cons_error _ _ _ _ _ _ err hs hi]
      | ok scope =>
        rw [harvestReg_cons_ok _ _ _ _ _ _ scope hs hi,
          harvestReg_cons_ok _ _ _ _ _ _ scope hs hi]
        exact ih _

/-- A recorded entry survives the rest of the package loop unchanged. -/
theorem harvestReg_mono (Exported : GoString → Bool)
    (imp : GoString → Except GoError Scope) (sel : Scope → GoMap)
    (pkgs : List GoString) (reg reg' : GoMap)
    (h : harvestReg Exported imp sel reg pkgs = .ok reg') (S q : GoString)
    (hget : mapGet reg S = some q) : mapGet reg' S = some q := by
  induction pkgs generalizing reg with
  | nil =>
    simp only [harvestReg, Except.ok.injEq] at h
    subst h
    exact hget
  | cons path rest ih =>
    cases hs : skipped path with
    | true =>
      rw [harvestReg_cons_skipped _ _ _ _ _ _ hs] at h
      exact ih reg h hget
    | false =>
      cases hi : imp path with
      | error err =>
        rw [harvestReg_cons_error _ _ _ _ _ _ err hs hi] at h
        cases h
      | ok scope =>
        rw [harvestReg_cons_ok _ _ _ _ _ _ scope hs hi] at h
        exact ih _ h (grabLoop_mono Exported path false (sel scope) reg S q hget)

/-- Where an entry of the registry after the package loop comes from. -/
theorem harvestReg_origin (Exported : GoString → Bool)
    (imp : GoString → Except GoError Scope) (sel : Scope → GoMap)
    (pkgs : List GoString) (reg reg' : GoMap)
    (h : harvestReg Exported imp sel reg pkgs = .ok reg') (S q : GoString)
    (hget : mapGet reg' S = some q) :
    mapGet reg S = some q ∨
      ∃ p scope n, p ∈ pkgs ∧ skipped p = false ∧ imp p = .ok scope ∧
        (S, n) ∈ sel scope ∧ Exported n = true ∧ q = fullName p n := by
  induction pkgs generalizing reg with
  | nil =>
    simp only [harvestReg, Except.ok.injEq] at h
    subst h
    exact Or.inl hget
  | cons path rest ih =>
    cases hs : skipped path with
    | true =>
      rw [harvestReg_cons_skipped _ _ _ _ _ _ hs] at h
      rcases ih reg h with h1 | ⟨p, scope, n, hp, hrest⟩
      · exact Or.inl h1
      · exact Or.inr ⟨p, scope, n, List.mem_cons_of_mem _ hp, hrest⟩
    | false =>
      cases hi : imp path with
      | error err =>
        rw [harvestReg_cons_error _ _ _ _ _ _ err hs hi] at h
        cases h
      | ok scope =>
        rw [harvestReg_cons_ok _ _ _ _ _ _ scope hs hi] at h
        rcases ih _ h with h1 | ⟨p, scope', n, hp, hrest⟩
        · rcases grabLoop_origin Exported path false (sel scope) reg S q h1 with
            h2 | ⟨n, hn, hel, hq⟩
          · exact Or.inl h2
          · have hE : Exported n = true := by
              rcases hel with hf | hE
              · cases hf
              · exact hE
            exact Or.inr ⟨path, scope, n, List.mem_cons_self _ _, hs, hi, hn, hE, hq⟩
        · exact Or.inr ⟨p, scope', n, List.mem_cons_of_mem _ hp, hrest⟩

theorem harvestReg_nodupKeys (Exported : GoString → Bool)
    (imp : GoString → Except GoError Scope) (sel : Scope → GoMap)
    (pkgs : List GoString) (reg reg' : GoMap)
    (h : harvestReg Exported imp sel reg pkgs = .ok reg')
    (hnd : (reg.map Prod.fst).Nodup) : (reg'.map Prod.fst).Nodup := by
  induction pkgs generalizing reg with
  | nil =>
    simp only [harvestReg, Except.ok.injEq] at h
    subst h
    exact hnd
  | cons path rest ih =>
    cases hs : skipped path with
    | true =>
      rw [harvestReg_cons_skipped _ _ _ _ _ _ hs] at h
      exact ih reg h hnd
    | false =>
      cases hi : imp path with
      | error err =>
        rw [harvestReg_cons_error _ _ _ _ _ _ err hs hi] at h
        cases h
      | ok scope =>
        rw [harvestReg_cons_ok _ _ _ _ _ _ scope hs hi] at h
        exact ih _ h (grabLoop_nodupKeys Exported path false (sel scope) reg hnd)

theorem fullName_nil (name : GoString) : fullName [] name = name := by
  simp [fullName]

/-- The universal scope from one registry's side: its entries are recorded
under their bare names and stay so. -/
theorem harvestReg_universal (Exported : GoString → Bool)
    (imp : GoString → Except GoError Scope) (sel : Scope → GoMap)
    (pkgs : List GoString) (uni reg' : GoMap)
    (h : harvestReg Exported imp sel (grabLoop Exported [] true [] uni) pkgs = .ok reg')
    (hnd : (uni.map Prod.fst).Nodup) (S n : GoString) (hmem : (S, n) ∈ uni) :
    mapGet reg' S = some n := by
  apply harvestReg_mono Exported imp sel pkgs _ reg' h
  have := grabLoop_records Exported [] true uni [] hnd S n hmem (Or.inl rfl) rfl
  rw [fullName_nil] at this
  exact this

/-- Where an entry of a final registry comes from: the universal scope, or an
exported symbol of a package of the list that was not skipped. -/
theorem harvestReg_universal_origin (Exported : GoString → Bool)
    (imp : GoString → Except GoError Scope) (sel : Scope → GoMap)
    (pkgs : List GoString) (uni reg' : GoMap)
    (h : harvestReg Exported imp sel (grabLoop Exported [] true [] uni) pkgs = .ok reg')
    (S q : GoString) (hget : mapGet reg' S = some q) :
    (∃ n, (S, n) ∈ uni ∧ q = n) ∨
      ∃ p scope n, p ∈ pkgs ∧ skipped p = false ∧ imp p = .ok scope ∧
        (S, n) ∈ sel scope ∧ Exported n = true ∧ q = fullName p n := by
  rcases harvestReg_origin Exported imp sel pkgs _ reg' h S q hget with h1 | h2
  · left
    rcases grabLoop_origin Exported [] true uni [] S q h1 with h3 | ⟨n, hn, _, hq⟩
    · simp [mapGet] at h3
    · exact ⟨n, hn, by rw [hq, fullName_nil]⟩
  · exact Or.inr h2

/-! ### Facts about qualified names -/

theorem splitDot_of_no_dot (s : GoString) (h : dot ∉ s) : splitDot s = [s] := by
  unfold splitDot List.splitOn
  apply List.splitOnP_eq_single
  intro x hx hxd
  have : x = dot := by simpa using hxd
  exact h (this ▸ hx)

theorem splitDot_append_dot (p n : GoString) (hp : dot ∉ p) :
    splitDot (p ++ [dot] ++ n) = p :: splitDot n := by
  unfold splitDot List.splitOn
  rw [List.append_assoc, List.singleton_append]
  apply List.splitOnP_first
  · intro x hx hxd
    have : x = dot := by simpa using hxd
    exact hp (this ▸ hx)
  · simp

theorem pkgName_of_no_dot (name : GoString) (h : dot ∉ name) : pkgName name = [] := by
  simp [pkgName, splitDot_of_no_dot name h]

theorem pkgName_fullName_of_no_dot (path name : GoString)
    (hp : dot ∉ path) (hn : dot ∉ name) : pkgName (fullName path name) = path := by
  by_cases h : path = []
  · subst h
    rw [fullName_nil, pkgName_of_no_dot name hn]
  · have hf : fullName path name = path ++ [dot] ++ name := by simp [fullName, h]
    rw [hf]
    unfold pkgName
    rw [splitDot_append_dot path name hp, splitDot_of_no_dot name hn]
    simp

theorem append_dot_inj : ∀ (p₁ p₂ n₁ n₂ : GoString), dot ∉ n₁ → dot ∉ n₂ →
    p₁ ++ [dot] ++ n₁ = p₂ ++ [dot] ++ n₂ → p₁ = p₂ ∧ n₁ = n₂
  | [], [], n₁, n₂, _, _, h => by simpa using h
  | [], y :: ys, n₁, n₂, h₁, _, h => by
    exfalso
    simp only [List.nil_append, List.singleton_append, List.cons_append,
      List.cons.injEq] at h
    apply h₁
    rw [h.2]
    simp
  | x :: xs, [], n₁, n₂, _, h₂, h => by
    exfalso
    simp only [List.nil_append, List.singleton_append, List.cons_append,
      List.cons.injEq] at h
    apply h₂
    rw [← h.2]
    simp
  | x :: xs, y :: ys, n₁, n₂, h₁, h₂, h => by
    simp only [List.cons_append, List.cons.injEq] at h
    obtain ⟨hp, hn⟩ := append_dot_inj xs ys n₁ n₂ h₁ h₂ h.2
    exact ⟨by rw [h.1, hp], hn⟩

/-- Qualified names of dot-free symbol names determine path and name. -/
theorem fullName_inj (p₁ p₂ n₁ n₂ : GoString) (h₁ : dot ∉ n₁) (h₂ : dot ∉ n₂)
    (h : fullName p₁ n₁ = fullName p₂ n₂) : p₁ = p₂ ∧ n₁ = n₂ := by
  unfold fullName at h
  by_cases e₁ : p₁ = [] <;> by_cases e₂ : p₂ = []
  · simp only [e₁, e₂, if_true] at h
    exact ⟨by rw [e₁, e₂], h⟩
  · exfalso
    simp only [e₁, e₂, if_true, if_false] at h
    apply h₁
    rw [h]
    simp
  · exfalso
    simp only [e₁, e₂, if_true, if_false] at h
    apply h₂
    rw [← h]
    simp
  · simp only [e₁, e₂, if_false] at h
    exact append_dot_inj p₁ p₂ n₁ n₂ h₁ h₂ h

/-- The first package that offers a signature through an exported symbol is
the one recorded, from one registry's side. -/
theorem harvestReg_first_writer (Exported : GoString → Bool)
    (imp : GoString → Except GoError Scope) (sel : Scope → GoMap)
    (pre rest : List GoString) (A : GoString) (sA : Scope) (uni reg' : GoMap)
    (h : harvestReg Exported imp sel (grabLoop Exported [] true [] uni) (pre ++ A :: rest)
      = .ok reg')
    (hA : skipped A = false) (hiA : imp A = .ok sA)
    (S nA : GoString) (hnd : ((sel sA).map Prod.fst).Nodup)
    (hSA : (S, nA) ∈ sel sA) (hEA : Exported nA = true)
    (huni : ∀ n, (S, n) ∉ uni)
    (hpre : ∀ p ∈ pre, skipped p = false → ∀ scope, imp p = .ok scope →
      ∀ n, (S, n) ∈ sel scope → Exported n = false) :
    mapGet reg' S = some (fullName A nA) := by
  rw [harvestReg_append] at h
  cases hmid : harvestReg Exported imp sel (grabLoop Exported [] true [] uni) pre with
  | error err => rw [hmid] at h; cases h
  | ok mid =>
    rw [hmid] at h
    simp only at h
    have hnone : mapGet mid S = none := by
      cases hget : mapGet mid S with
      | none => rfl
      | some q =>
        exfalso
        rcases harvestReg_universal_origin Exported imp sel pre uni mid hmid S q hget with
          ⟨n, hn, _⟩ | ⟨p, scope, n, hp, hs, hi, hn, hE, _⟩
        · exact huni n hn
        · rw [hpre p hp hs scope hi n hn] at hE
          cases hE
    rw [harvestReg_cons_ok _ _ _ _ _ _ sA hA hiA] at h
    exact harvestReg_mono Exported imp sel rest _ reg' h S _
      (grabLoop_records Exported A false (sel sA) mid hnd S nA hSA (Or.inr hEA) hnone)

/-! ### Facts about `prepare` -/

theorem prepareStep_pkgNames (st : prepareMaps) (e : GoString × GoString) (path : GoString) :
    (prepareStep st e).pkgNames path =
      if pkgName e.2 = path then st.pkgNames path ++ [e.2] else st.pkgNames path := by
  unfold prepareStep
  by_cases h : pkgName e.2 = path
  · subst h
    simp
  · have h' : path ≠ pkgName e.2 := fun h' => h h'.symm
    simp [Function.update_noteq h', h]

theorem prepareStep_nameTypes (st : prepareMaps) (e : GoString × GoString) (f : GoString) :
    (prepareStep st e).nameTypes f = if e.2 = f then e.1 else st.nameTypes f := by
  unfold prepareStep
  by_cases h : e.2 = f
  · subst h
    simp
  · have h' : f ≠ e.2 := fun h' => h h'.symm
    simp [Function.update_noteq h', h]

theorem foldl_prepareStep_pkgNames (entries : GoMap) (st : prepareMaps) (path : GoString) :
    (entries.foldl prepareStep st).pkgNames path =
      st.pkgNames path ++
        (entries.filter (fun e => decide (pkgName e.2 = path))).map Prod.snd := by
  induction entries generalizing st with
  | nil => simp
  | cons e es ih =>
    rw [List.foldl_cons, ih, prepareStep_pkgNames]
    by_cases h : pkgName e.2 = path
    · simp [h, List.filter_cons]
    · simp [h, List.filter_cons]

/-- After the first loop, the slice of a path holds the qualified names filed
under it, in the order in which they were visited. -/
theorem prepareLoop_pkgNames (entries : GoMap) (path : GoString) :
    (prepareLoop entries).pkgNames path =
      (entries.filter (fun e => decide (pkgName e.2 = path))).map Prod.snd := by
  unfold prepareLoop
  rw [foldl_prepareStep_pkgNames]
  simp

theorem foldl_prepareStep_nameTypes_of_not_mem (entries : GoMap) (st : prepareMaps)
    (f : GoString) (h : f ∉ entries.map Prod.snd) :
    (entries.foldl prepareStep st).nameTypes f = st.nameTypes f := by
  induction entries generalizing st with
  | nil => rfl
  | cons e es ih =>
    rw [List.map_cons, List.mem_cons, not_or] at h
    rw [List.foldl_cons, ih _ h.2, prepareStep_nameTypes]
    have hne : ¬ e.2 = f := fun h' => h.1 h'.symm
    simp [hne]

theorem foldl_prepareStep_nameTypes_mem (entries : GoMap) (st : prepareMaps)
    (f : GoString) (h : f ∈ entries.map Prod.snd) :
    ((entries.foldl prepareStep st).nameTypes f, f) ∈ entries := by
  induction entries generalizing st with
  | nil => simp at h
  | cons e es ih =>
    rw [List.foldl_cons]
    by_cases hes : f ∈ es.map Prod.snd
    · exact List.mem_cons_of_mem _ (ih _ hes)
    · rw [foldl_prepareStep_nameTypes_of_not_mem es _ f hes, prepareStep_nameTypes]
      rw [List.map_cons, List.mem_cons] at h
      have hf : e.2 = f := by
        rcases h with h | h
        · exact h.symm
        · exact absurd h hes
      simp only [hf, if_true]
      rw [← hf]
      exact List.mem_cons_self _ _

/-- After the first loop, the signature kept for a qualified name of the
registry is that of an entry with this name. -/
theorem prepareLoop_nameTypes_mem (entries : GoMap) (f : GoString)
    (h : f ∈ entries.map Prod.snd) : ((prepareLoop entries).nameTypes f, f) ∈ entries :=
  foldl_prepareStep_nameTypes_mem entries _ f h

theorem prepareLoop_nameTypes_of_nodup (entries : GoMap)
    (hnd : (entries.map Prod.snd).Nodup) (t f : GoString) (h : (t, f) ∈ entries) :
    (prepareLoop entries).nameTypes f = t := by
  have h1 := prepareLoop_nameTypes_mem entries f (List.mem_map.mpr ⟨(t, f), h, rfl⟩)
  have := List.inj_on_of_nodup_map hnd h1 h rfl
  exact congrArg Prod.fst this

theorem foldl_addNames (st : prepareMaps) (pkgs : List GoString) (result : List pkgType) :
    pkgs.foldl (addNames st) result = result ++ pkgs.flatMap (addNames st []) := by
  induction pkgs generalizing result with
  | nil => simp
  | cons path rest ih =>
    rw [List.foldl_cons, ih, List.flatMap_cons]
    simp [addNames, List.append_assoc]

/-- The table is the group of the empty path followed by the groups of the
paths of `pkgs`, one after the other. -/
theorem prepare_eq_groups (entries : GoMap) (pkgs : List GoString) :
    prepare entries pkgs =
      addNames (prepareLoop entries) [] [] ++
        (pkgs.map (addNames (prepareLoop entries) [])).flatten := by
  unfold prepare
  simp only []
  rw [foldl_addNames, List.flatMap_def]

theorem addNames_paths_perm (entries : GoMap) (path : GoString) :
    ((addNames (prepareLoop entries) [] path).map pkgType.Path).Perm
      ((entries.filter (fun e => decide (pkgName e.2 = path))).map Prod.snd) := by
  unfold addNames
  simp only [List.nil_append, List.map_map]
  rw [prepareLoop_pkgNames]
  have : (pkgType.Path ∘ fun fullname =>
      ({ Typ := (prepareLoop entries).nameTypes fullname, Path := fullname } : pkgType))
      = id := rfl
  rw [this, List.map_id]
  exact sortSort_perm byAlphLess _

theorem addNames_mem (entries : GoMap) (path : GoString) (e : pkgType)
    (h : e ∈ addNames (prepareLoop entries) [] path) :
    pkgName e.Path = path ∧ (e.Typ, e.Path) ∈ entries := by
  have hp : e.Path ∈ (entries.filter (fun e => decide (pkgName e.2 = path))).map Prod.snd :=
    (addNames_paths_perm entries path).mem_iff.mp (List.mem_map.mpr ⟨e, h, rfl⟩)
  obtain ⟨x, hx, hxe⟩ := List.mem_map.mp hp
  rw [List.mem_filter] at hx
  have hx2 : pkgName x.2 = path := by simpa using hx.2
  unfold addNames at h
  simp only [List.nil_append, List.mem_map] at h
  obtain ⟨f, _, hfe⟩ := h
  have hT : e.Typ = (prepareLoop entries).nameTypes e.Path := by
    rw [← hfe]
  refine ⟨by rw [← hxe]; exact hx2, ?_⟩
  rw [hT]
  exact prepareLoop_nameTypes_mem entries e.Path (List.mem_map.mpr ⟨x, hx.1, hxe⟩)

theorem addNames_sorted (entries : GoMap) (path : GoString) :
    (addNames (prepareLoop entries) [] path).Pairwise
      (fun a b => strLess b.Path a.Path = false) := by
  unfold addNames
  simp only [List.nil_append]
  rw [List.pairwise_map]
  exact sortSort_sorted byAlphLess strLess_asymm strLess_le_trans _

/-- Every row of the table is an entry of the registry. -/
theorem prepare_mem (entries : GoMap) (pkgs : List GoString) (e : pkgType)
    (h : e ∈ prepare entries pkgs) : (e.Typ, e.Path) ∈ entries := by
  rw [prepare_eq_groups, List.mem_append, List.mem_flatten] at h
  rcases h with h | ⟨l, hl, hel⟩
  · exact (addNames_mem entries [] e h).2
  · obtain ⟨path, _, hpath⟩ := List.mem_map.mp hl
    rw [← hpath] at hel
    exact (addNames_mem entries path e hel).2

theorem sum_map_ite_eq {β : Type} [DecidableEq β] (paths : List β) (k : β) (c : Nat) :
    (paths.map (fun p => if k = p then c else 0)).sum
      = paths.countP (fun p => decide (k = p)) * c := by
  induction paths with
  | nil => simp
  | cons p ps ih =>
    rw [List.map_cons, List.sum_cons, ih, List.countP_cons]
    by_cases h : k = p
    · simp [h, Nat.add_mul, Nat.add_comm]
    · simp [h]

/-- Collecting the elements of a list key by key gives back all of them, when
the key of each element is visited once. -/
theorem flatMap_filter_perm {α β : Type} [DecidableEq α] [DecidableEq β] (key : α → β)
    (l : List α) (paths : List β)
    (h : ∀ a ∈ l, paths.countP (fun p => decide (key a = p)) = 1) :
    (paths.flatMap (fun p => l.filter (fun a => decide (key a = p)))).Perm l := by
  rw [List.perm_iff_count]
  intro x
  rw [List.count_flatMap]
  have hfun : (List.count x ∘ fun p => l.filter (fun a => decide (key a = p)))
      = fun p => if key x = p then l.count x else 0 := by
    funext p
    simp only [Function.comp]
    by_cases hx : key x = p
    · rw [List.count_filter (by simpa using hx)]
      simp [hx]
    · simp only [hx, if_false]
      rw [List.count_eq_zero, List.mem_filter]
      intro hmem
      exact hx (by simpa using hmem.2)
  rw [hfun, sum_map_ite_eq]
  by_cases hx : x ∈ l
  · rw [h x hx, Nat.one_mul]
  · rw [List.count_eq_zero_of_not_mem hx, Nat.mul_zero]

theorem countP_eq_zero_of_not_mem {β : Type} [DecidableEq β] (l : List β) (k : β)
    (h : k ∉ l) : l.countP (fun p => decide (k = p)) = 0 := by
  rw [List.countP_eq_zero]
  intro a ha hka
  have : k = a := by simpa using hka
  exact h (this ▸ ha)

theorem countP_eq_one_of_nodup {β : Type} [DecidableEq β] (l : List β) (k : β)
    (hnd : l.Nodup) (h : k ∈ l) : l.countP (fun p => decide (k = p)) = 1 := by
  induction l with
  | nil => simp at h
  | cons x xs ih =>
    rw [List.nodup_cons] at hnd
    rw [List.countP_cons]
    by_cases hk : k = x
    · subst hk
      rw [countP_eq_zero_of_not_mem xs k hnd.1]
      simp
    · rcases List.mem_cons.mp h with h' | h'
      · exact absurd h' hk
      · rw [ih hnd.2 h']
        simp [hk]

theorem addNames_perm_of_nodup (entries : GoMap) (hnd : (entries.map Prod.snd).Nodup)
    (path : GoString) :
    (addNames (prepareLoop entries) [] path).Perm
      ((entries.filter (fun e => decide (pkgName e.2 = path))).map toRow) := by
  unfold addNames
  simp only [List.nil_append]
  rw [prepareLoop_pkgNames]
  refine ((sortSort_perm byAlphLess _).map _).trans ?_
  rw [List.map_map]
  apply List.Perm.of_eq
  apply List.map_congr_left
  intro e he
  rw [List.mem_filter] at he
  simp only [Function.comp, toRow]
  rw [prepareLoop_nameTypes_of_nodup entries hnd e.1 e.2 he.1]

/-- The table is a reordering of the registry when qualified names are
pairwise distinct and the path each of them is filed under is visited once. -/
theorem prepare_perm (entries : GoMap) (pkgs : List GoString)
    (hnd : (entries.map Prod.snd).Nodup)
    (hcount : ∀ e ∈ entries,
      (([] : GoString) :: pkgs).countP (fun p => decide (pkgName e.2 = p)) = 1) :
    (prepare entries pkgs).Perm (entries.map toRow) := by
  have h1 : prepare entries pkgs
      = (([] : GoString) :: pkgs).flatMap (addNames (prepareLoop entries) []) := by
    rw [prepare_eq_groups, List.flatMap_cons, List.flatMap_def]
  rw [h1]
  refine (List.Perm.flatMap_left _
    (fun path _ => addNames_perm_of_nodup entries hnd path)).trans ?_
  rw [← List.map_flatMap]
  exact (flatMap_filter_perm (fun e => pkgName e.2) entries _ hcount).map _

theorem skipped_nil : skipped [] = false := by decide

/-- What the harvested registry needs for the assembler, from one registry's
side: qualified names are pairwise distinct and each is filed under a path that
`prepare` visits once. -/
theorem harvestReg_prepare_ready (Exported : GoString → Bool)
    (imp : GoString → Except GoError Scope) (sel : Scope → GoMap)
    (pkgs : List GoString) (uni reg' : GoMap)
    (h : harvestReg Exported imp sel (grabLoop Exported [] true [] uni) pkgs = .ok reg')
    (hpk : (pkgs.filter (fun p => !skipped p)).Nodup)
    (hpaths : ∀ p ∈ pkgs, skipped p = false → p ≠ [] ∧ dot ∉ p)
    (huni : identNames uni)
    (hsc : ∀ p ∈ pkgs, skipped p = false →
      ∀ scope, imp p = .ok scope → identNames (sel scope)) :
    (reg'.map Prod.snd).Nodup ∧
    ∀ e ∈ reg', (([] : GoString) :: pkgs).countP (fun p => decide (pkgName e.2 = p)) = 1 := by
  have hkeys : (reg'.map Prod.fst).Nodup :=
    harvestReg_nodupKeys Exported imp sel pkgs _ reg' h
      (grabLoop_nodupKeys Exported [] true uni [] (by simp))
  have hnil : ([] : GoString) ∉ pkgs := fun hm => (hpaths [] hm skipped_nil).1 rfl
  -- every entry is `fullName p n` for a symbol `n` of the map `m` harvested for `p`
  have horigin : ∀ e ∈ reg', ∃ p n m, e.2 = fullName p n ∧ (e.1, n) ∈ m ∧ identNames m ∧
      dot ∉ p ∧ (([] : GoString) :: pkgs).countP (fun x => decide (p = x)) = 1 ∧
      ((p = [] ∧ m = uni) ∨ (p ≠ [] ∧ ∃ scope, imp p = .ok scope ∧ m = sel scope)) := by
    intro e he
    have hget : mapGet reg' e.1 = some e.2 := mapGet_of_mem reg' hkeys e.1 e.2 he
    rcases harvestReg_universal_origin Exported imp sel pkgs uni reg' h e.1 e.2 hget with
      ⟨n, hn, hq⟩ | ⟨p, scope, n, hp, hs, hi, hn, _, hq⟩
    · refine ⟨[], n, uni, by rw [hq, fullName_nil], hn, huni, by simp, ?_, Or.inl ⟨rfl, rfl⟩⟩
      rw [List.countP_cons, countP_eq_zero_of_not_mem pkgs [] hnil]
      simp
    · obtain ⟨hne, hdot⟩ := hpaths p hp hs
      refine ⟨p, n, sel scope, hq, hn, hsc p hp hs scope hi, hdot, ?_,
        Or.inr ⟨hne, scope, hi, rfl⟩⟩
      have h1 := countP_eq_one_of_nodup _ p hpk (List.mem_filter.mpr ⟨hp, by simp [hs]⟩)
      rw [List.countP_filter] at h1
      have h2 : pkgs.countP (fun x => decide (p = x)) = 1 := by
        rw [← h1]
        apply List.countP_congr
        intro x _
        by_cases hx : p = x
        · subst hx
          simp [hs]
        · simp [hx]
      rw [List.countP_cons, h2]
      simp [hne]
  constructor
  · refine List.Nodup.map_on ?_ (List.Nodup.of_map Prod.fst hkeys)
    intro x hx y hy hxy
    obtain ⟨p₁, n₁, m₁, hq₁, hm₁, hid₁, _, _, hor₁⟩ := horigin x hx
    obtain ⟨p₂, n₂, m₂, hq₂, hm₂, hid₂, _, _, hor₂⟩ := horigin y hy
    have hinj := fullName_inj p₁ p₂ n₁ n₂ (hid₁.1 _ hm₁) (hid₂.1 _ hm₂)
      (by rw [← hq₁, ← hq₂, hxy])
    obtain ⟨hp, hn⟩ := hinj
    subst hp
    subst hn
    have hm : m₁ = m₂ := by
      rcases hor₁ with ⟨hp₁, e₁⟩ | ⟨hp₁, sc₁, hi₁, e₁⟩ <;>
        rcases hor₂ with ⟨hp₂, e₂⟩ | ⟨hp₂, sc₂, hi₂, e₂⟩
      · rw [e₁, e₂]
      · exact absurd hp₁ hp₂
      · exact absurd hp₂ hp₁
      · rw [hi₁] at hi₂
        cases hi₂
        rw [e₁, e₂]
    subst hm
    have hpair : (x.1, n₁) = (y.1, n₁) := List.inj_on_of_nodup_map hid₁.2 hm₁ hm₂ rfl
    have hfst : x.1 = y.1 := (Prod.mk.injEq _ _ _ _ ▸ hpair).1
    exact Prod.ext hfst hxy
  · intro e he
    obtain ⟨p, n, m, hq, hm, hid, hdot, hcount, _⟩ := horigin e he
    rw [hq, pkgName_fullName_of_no_dot p n hdot (hid.1 _ hm)]
    exact hcount

/-! ### Facts about the final registries and the table -/

theorem grabLoop_mem_origin (Exported : GoString → Bool) (path : GoString) (all : Bool)
    (entries reg : GoMap) (S q : GoString)
    (h : (S, q) ∈ grabLoop Exported path all reg entries) :
    (S, q) ∈ reg ∨
      ∃ n, (S, n) ∈ entries ∧ (all = true ∨ Exported n = true) ∧ q = fullName path n := by
  induction entries generalizing reg with
  | nil => exact Or.inl h
  | cons e es ih =>
    rcases ih (grabStep Exported path all reg e) h with h1 | ⟨n, hn, hel, hq⟩
    · rcases grabStep_cases Exported path all reg e with h2 | ⟨_, hel, h2⟩
      · rw [h2] at h1
        exact Or.inl h1
      · rw [h2, List.mem_append, List.mem_singleton] at h1
        rcases h1 with h1 | h1
        · exact Or.inl h1
        · rw [Prod.mk.injEq] at h1
          refine Or.inr ⟨e.2, ?_, hel, h1.2⟩
          rw [h1.1]
          exact List.mem_cons_self _ _
    · exact Or.inr ⟨n, List.mem_cons_of_mem _ hn, hel, hq⟩

/-- Where an entry of a final registry comes from, by membership. -/
theorem harvestReg_mem_origin (Exported : GoString → Bool)
    (imp : GoString → Except GoError Scope) (sel : Scope → GoMap)
    (pkgs : List GoString) (uni reg' : GoMap)
    (h : harvestReg Exported imp sel (grabLoop Exported [] true [] uni) pkgs = .ok reg')
    (S q : GoString) (hmem : (S, q) ∈ reg') :
    (S, q) ∈ uni ∨
      ∃ p scope n, p ∈ pkgs ∧ skipped p = false ∧ imp p = .ok scope ∧
        (S, n) ∈ sel scope ∧ Exported n = true ∧ q = fullName p n := by
  have hkeys : (reg'.map Prod.fst).Nodup :=
    harvestReg_nodupKeys Exported imp sel pkgs _ reg' h
      (grabLoop_nodupKeys Exported [] true uni [] (by simp))
  rcases harvestReg_universal_origin Exported imp sel pkgs uni reg' h S q
    (mapGet_of_mem reg' hkeys S q hmem) with ⟨n, hn, hq⟩ | h2
  · exact Or.inl (hq ▸ hn)
  · exact Or.inr h2

theorem skipped_eq_false (p : GoString) (h : skipped p = false) :
    p ≠ unsafePath ∧ stringsContains p internalStr = false := by
  have h' : ¬ (p = unsafePath ∨ stringsContains p internalStr = true) := by
    rw [← skipped_eq_true_iff, h]; simp
  exact ⟨fun h1 => h' (Or.inl h1), by
    cases hc : stringsContains p internalStr with
    | false => rfl
    | true => exact absurd (Or.inr hc) h'⟩

theorem generate_ok (Exported : GoString → Bool) (universal : Scope)
    (imp : GoString → Except GoError Scope) (rangeOrder : GoMap → GoMap)
    (pkgs : List GoString) (t : Table)
    (h : generate Exported universal imp rangeOrder pkgs = .ok t) :
    ∃ r, harvest Exported universal imp pkgs = .ok r ∧
      t = { Pkgs := pkgs
            Ifaces := prepare (rangeOrder r.ifaces) pkgs
            Funcs := prepare (rangeOrder r.funcs) pkgs } := by
  unfold generate at h
  cases hr : harvest Exported universal imp pkgs with
  | error err => rw [hr] at h; cases h
  | ok r =>
    rw [hr] at h
    simp only [Except.ok.injEq] at h
    exact ⟨r, rfl, h.symm⟩

/-- A skipped path may be dropped from the list without changing the harvest. -/
theorem harvestPkgs_drop_skipped (Exported : GoString → Bool)
    (imp : GoString → Except GoError Scope) (pre post : List GoString) (p : GoString)
    (hp : p = unsafePath ∨ stringsContains p internalStr = true) (r : Registries) :
    harvestPkgs Exported imp r (pre ++ p :: post) = harvestPkgs Exported imp r (pre ++ post) := by
  induction pre generalizing r with
  | nil =>
    rw [List.nil_append, List.nil_append]
    rcases hp with h1 | h2
    · simp [harvestPkgs, h1]
    · by_cases h1 : p = unsafePath
      · simp [harvestPkgs, h1]
      · simp [harvestPkgs, h1, h2]
  | cons x xs ih =>
    rw [List.cons_append, List.cons_append]
    unfold harvestPkgs
    by_cases h1 : x = unsafePath
    · simp only [h1, if_true]
      exact ih r
    · by_cases h2 : stringsContains x internalStr = true
      · simp only [h1, h2, if_true, if_false]
        exact ih r
      · simp only [h1, h2, if_false]
        cases imp x with
        | error err => rfl
        | ok scope => exact ih _

theorem toRow_injective : Function.Injective toRow := by
  intro a b h
  unfold toRow at h
  rw [pkgType.mk.injEq] at h
  exact Prod.ext h.1 h.2

/-! ## The package orderer: results -/

/-- C3: the processing order is a permutation of the input (duplicates kept) in
which, of any two positions, the earlier path is strictly shorter than the
later one, or as long and lexicographically less than or equal to it; the
input `io, fmt, os` yields `io, os, fmt`. -/
theorem processingOrder_sorted_perm (l : List GoString) :
    (processingOrder l).Perm l ∧
    (processingOrder l).Pairwise (fun a b =>
      a.length < b.length ∨ (a.length = b.length ∧ (strLess a b = true ∨ a = b))) ∧
    processingOrder [ascii "io", ascii "fmt", ascii "os"]
      = [ascii "io", ascii "os", ascii "fmt"] := by
  refine ⟨sortSort_perm byLengthLess l, ?_, by decide⟩
  refine List.Pairwise.imp ?_
    (sortSort_sorted byLengthLess byLengthLess_asymm byLengthLess_le_trans l)
  intro a b hab
  rcases (byLengthLess_false_iff a b).mp hab with h | ⟨h, h'⟩
  · exact Or.inl h
  · refine Or.inr ⟨h, ?_⟩
    cases hab' : strLess a b with
    | true => exact Or.inl rfl
    | false => exact Or.inr (strLess_connex a b hab' h')

/-- C4: two inputs that are permutations of each other are sorted into the same
processing order, so that `generate` receives the same list and `main` arrives
at the same table (or the same error). -/
theorem mainRun_input_order_irrelevant (Exported : GoString → Bool) (universal : Scope)
    (imp : GoString → Except GoError Scope) (rangeOrder : GoMap → GoMap)
    (l₁ l₂ : List GoString) (h : l₁.Perm l₂) :
    processingOrder l₁ = processingOrder l₂ ∧
    mainRun Exported universal imp rangeOrder l₁
      = mainRun Exported universal imp rangeOrder l₂ := by
  have hp := processingOrder_eq_of_perm l₁ l₂ h
  exact ⟨hp, by unfold mainRun; rw [hp]⟩



theorem mainRun_input_order_irrelevant_witness :
    [ascii "io", ascii "fmt", ascii "os"].Perm [ascii "os", ascii "io", ascii "fmt"] ∧
    processingOrder [ascii "io", ascii "fmt", ascii "os"]
      = processingOrder [ascii "os", ascii "io", ascii "fmt"] ∧
    mainRun sampleExported sampleUniverse sampleImp id [ascii "io", ascii "fmt", ascii "os"]
      = mainRun sampleExported sampleUniverse sampleImp id
          [ascii "os", ascii "io", ascii "fmt"] :=
  ⟨by decide,
    mainRun_input_order_irrelevant sampleExported sampleUniverse sampleImp id
      [ascii "io", ascii "fmt", ascii "os"] [ascii "os", ascii "io", ascii "fmt"] (by decide)⟩

/-! ## Harvesting: results -/

/-- C1: every interface (resp. function) signature that the universal scope
produces is recorded in the final registry under the bare name of the universal
symbol, exported or not, whatever the packages of the list produce. -/
theorem universal_precedence (Exported : GoString → Bool) (universal : Scope)
    (imp : GoString → Except GoError Scope) (pkgs : List GoString) (r : Registries)
    (h : harvest Exported universal imp pkgs = .ok r)
    (hi : (universal.ifs.map Prod.fst).Nodup) (hf : (universal.funs.map Prod.fst).Nodup) :
    (∀ S n, (S, n) ∈ universal.ifs → mapGet r.ifaces S = some n) ∧
    (∀ S n, (S, n) ∈ universal.funs → mapGet r.funcs S = some n) := by
  obtain ⟨h1, h2⟩ := harvest_proj Exported universal imp pkgs r h
  exact ⟨fun S n hm => harvestReg_universal Exported imp Scope.ifs pkgs _ _ h1 hi S n hm,
    fun S n hm => harvestReg_universal Exported imp Scope.funs pkgs _ _ h2 hf S n hm⟩


theorem universal_precedence_witness :
    harvest sampleExported sampleUniverse sampleImp [ascii "io", ascii "os"]
      = .ok sampleRegistries ∧
    ((∀ S n, (S, n) ∈ sampleUniverse.ifs → mapGet sampleRegistries.ifaces S = some n) ∧
     (∀ S n, (S, n) ∈ sampleUniverse.funs → mapGet sampleRegistries.funcs S = some n)) :=
  ⟨rfl, universal_precedence sampleExported sampleUniverse sampleImp
    [ascii "io", ascii "os"] sampleRegistries rfl (by decide) (by decide)⟩

/-- C2: when two harvested packages `A` and `B`, `A` earlier in the list, both
produce a signature through an exported symbol and nothing processed before
`A` produces it through an eligible symbol, the name recorded for it is
`fullName(A, A's symbol)`; it is not `B`'s qualified name when `B` is another
path and the symbol names are identifiers (dot-free). -/
theorem first_package_precedence (Exported : GoString → Bool) (universal : Scope)
    (imp : GoString → Except GoError Scope) (pre mid post : List GoString)
    (A B : GoString) (sA sB : Scope) (r : Registries)
    (h : harvest Exported universal imp (pre ++ A :: (mid ++ B :: post)) = .ok r)
    (hA : skipped A = false) (hB : skipped B = false)
    (hiA : imp A = .ok sA) (hiB : imp B = .ok sB) :
    (∀ S nA nB, (sA.ifs.map Prod.fst).Nodup →
      (S, nA) ∈ sA.ifs → Exported nA = true → (S, nB) ∈ sB.ifs → Exported nB = true →
      (∀ n, (S, n) ∉ universal.ifs) →
      (∀ p ∈ pre, skipped p = false → ∀ scope, imp p = .ok scope →
        ∀ n, (S, n) ∈ scope.ifs → Exported n = false) →
      mapGet r.ifaces S = some (fullName A nA) ∧
      (A ≠ B → dot ∉ nA → dot ∉ nB → mapGet r.ifaces S ≠ some (fullName B nB))) ∧
    (∀ S nA nB, (sA.funs.map Prod.fst).Nodup →
      (S, nA) ∈ sA.funs → Exported nA = true → (S, nB) ∈ sB.funs → Exported nB = true →
      (∀ n, (S, n) ∉ universal.funs) →
      (∀ p ∈ pre, skipped p = false → ∀ scope, imp p = .ok scope →
        ∀ n, (S, n) ∈ scope.funs → Exported n = false) →
      mapGet r.funcs S = some (fullName A nA) ∧
      (A ≠ B → dot ∉ nA → dot ∉ nB → mapGet r.funcs S ≠ some (fullName B nB))) := by
  obtain ⟨h1, h2⟩ := harvest_proj Exported universal imp _ r h
  constructor
  · intro S nA nB hnd hSA hEA _ _ huni hpre
    have hrec := harvestReg_first_writer Exported imp Scope.ifs pre _ A sA _ _ h1 hA hiA
      S nA hnd hSA hEA huni hpre
    refine ⟨hrec, fun hAB hdA hdB hB' => ?_⟩
    rw [hrec] at hB'
    exact hAB (fullName_inj A B nA nB hdA hdB (Option.some.inj hB')).1
  · intro S nA nB hnd hSA hEA _ _ huni hpre
    have hrec := harvestReg_first_writer Exported imp Scope.funs pre _ A sA _ _ h2 hA hiA
      S nA hnd hSA hEA huni hpre
    refine ⟨hrec, fun hAB hdA hdB hB' => ?_⟩
    rw [hrec] at hB'
    exact hAB (fullName_inj A B nA nB hdA hdB (Option.some.inj hB')).1


theorem first_package_precedence_witness :
    harvest sampleExported sampleUniverse sampleImp [ascii "io", ascii "os"]
      = .ok sampleRegistries ∧
    mapGet sampleRegistries.ifaces (ascii "Read") = some (fullName (ascii "io") (ascii "Reader")) ∧
    mapGet sampleRegistries.ifaces (ascii "Read") ≠ some (fullName (ascii "os") (ascii "File")) := by
  have h := (first_package_precedence sampleExported sampleUniverse sampleImp [] [] []
    (ascii "io") (ascii "os") sampleIo sampleOs sampleRegistries rfl rfl rfl rfl rfl).1
    (ascii "Read") (ascii "Reader") (ascii "File") (by decide) (by decide) (by decide)
    (by decide) (by decide)
    (fun n hn => absurd
      (show ascii "Read" = ascii "Error" from congrArg Prod.fst (List.mem_singleton.mp hn))
      (by decide))
    (fun p hp => absurd hp (List.not_mem_nil p))
  exact ⟨rfl, h.1, h.2 (by decide) (by decide) (by decide)⟩

/-- C5: recording a candidate is insert-if-absent. A signature that is not a
key becomes one, bound to `fullName(path, name)`, and every other key keeps its
value; a signature that is a key leaves the registry as it is. This is what a
loop body of `grabTypes` does with every symbol that passes the export check. -/
theorem recordCandidate_insert_if_absent (reg : GoMap) (sig path name : GoString) :
    (mapGet reg sig = none →
      mapGet (recordCandidate reg sig path name) sig = some (fullName path name) ∧
      ∀ k, k ≠ sig → mapGet (recordCandidate reg sig path name) k = mapGet reg k) ∧
    ((mapGet reg sig).isSome = true → recordCandidate reg sig path name = reg) ∧
    (∀ (Exported : GoString → Bool) (all : Bool), all = true ∨ Exported name = true →
      grabStep Exported path all reg (sig, name) = recordCandidate reg sig path name) := by
  refine ⟨fun hnone => ?_, fun hsome => ?_, fun Exported all hel => ?_⟩
  · rw [recordCandidate_of_none reg sig path name hnone]
    refine ⟨by rw [mapGet_append, hnone]; simp [mapGet], fun k hk => ?_⟩
    rw [mapGet_append]
    cases hget : mapGet reg k with
    | some v => rfl
    | none =>
      have hne : ¬ sig = k := fun h => hk h.symm
      simp [mapGet, hne]
  · cases hget : mapGet reg sig with
    | none => rw [hget] at hsome; cases hsome
    | some q => exact recordCandidate_of_some reg sig path name q hget
  · unfold grabStep
    have : (!all && !Exported name) = false := by
      rcases hel with h | h <;> simp [h]
    simp [this]

/-- C6: no entry of a final registry, and no row of the assembled table, was
harvested from `unsafe` or from a path with `internal` in it: each one is an
entry of the universal scope under its bare name or `fullName(p, n)` for a
symbol `n` of a path `p` of the list, `p` not `unsafe` and without `internal`.
A path that is `unsafe` or has `internal` in it, such as `crypto/internal/foo`,
can be dropped from the list without changing the harvest. -/
theorem exclusion_law (Exported : GoString → Bool) (universal : Scope)
    (imp : GoString → Except GoError Scope) (rangeOrder : GoMap → GoMap)
    (pkgs : List GoString) (hrange : ∀ m, (rangeOrder m).Perm m) :
    (∀ r, harvest Exported universal imp pkgs = .ok r →
      (∀ S q, (S, q) ∈ r.ifaces →
        (S, q) ∈ universal.ifs ∨ fromIncluded imp Scope.ifs pkgs S q) ∧
      (∀ S q, (S, q) ∈ r.funcs →
        (S, q) ∈ universal.funs ∨ fromIncluded imp Scope.funs pkgs S q)) ∧
    (∀ t, generate Exported universal imp rangeOrder pkgs = .ok t →
      (∀ e ∈ t.Ifaces,
        (e.Typ, e.Path) ∈ universal.ifs ∨ fromIncluded imp Scope.ifs pkgs e.Typ e.Path) ∧
      (∀ e ∈ t.Funcs,
        (e.Typ, e.Path) ∈ universal.funs ∨ fromIncluded imp Scope.funs pkgs e.Typ e.Path)) ∧
    (∀ pre post p, p = unsafePath ∨ stringsContains p internalStr = true →
      harvest Exported universal imp (pre ++ p :: post)
        = harvest Exported universal imp (pre ++ post)) ∧
    stringsContains (ascii "crypto/internal/foo") internalStr = true := by
  have key : ∀ r, harvest Exported universal imp pkgs = .ok r →
      (∀ S q, (S, q) ∈ r.ifaces →
        (S, q) ∈ universal.ifs ∨ fromIncluded imp Scope.ifs pkgs S q) ∧
      (∀ S q, (S, q) ∈ r.funcs →
        (S, q) ∈ universal.funs ∨ fromIncluded imp Scope.funs pkgs S q) := by
    intro r h
    obtain ⟨h1, h2⟩ := harvest_proj Exported universal imp pkgs r h
    constructor
    · intro S q hm
      rcases harvestReg_mem_origin Exported imp Scope.ifs pkgs _ _ h1 S q hm with
        hu | ⟨p, scope, n, hp, hs, hi, hn, _, hq⟩
      · exact Or.inl hu
      · exact Or.inr ⟨p, scope, n, hp, (skipped_eq_false p hs).1, (skipped_eq_false p hs).2,
          hi, hn, hq⟩
    · intro S q hm
      rcases harvestReg_mem_origin Exported imp Scope.funs pkgs _ _ h2 S q hm with
        hu | ⟨p, scope, n, hp, hs, hi, hn, _, hq⟩
      · exact Or.inl hu
      · exact Or.inr ⟨p, scope, n, hp, (skipped_eq_false p hs).1, (skipped_eq_false p hs).2,
          hi, hn, hq⟩
  refine ⟨key, ?_, ?_, by decide⟩
  · intro t ht
    obtain ⟨r, hr, rfl⟩ := generate_ok Exported universal imp rangeOrder pkgs t ht
    obtain ⟨k1, k2⟩ := key r hr
    exact ⟨fun e he => k1 _ _ ((hrange _).mem_iff.mp (prepare_mem _ pkgs e he)),
      fun e he => k2 _ _ ((hrange _).mem_iff.mp (prepare_mem _ pkgs e he))⟩
  · intro pre post p hp
    exact harvestPkgs_drop_skipped Exported imp pre post p hp _


theorem exclusion_law_witness :
    (∀ m : GoMap, (id m).Perm m) ∧
    harvest sampleExported sampleUniverse sampleImp
      [ascii "io", ascii "unsafe", ascii "crypto/internal/foo"] = .ok
        { ifaces := [(ascii "Error", ascii "error"), (ascii "Read", ascii "io.Reader")]
          funcs := [(ascii "func()", ascii "io.Thunk")] } ∧
    ∀ r, harvest sampleExported sampleUniverse sampleImp
        [ascii "io", ascii "unsafe", ascii "crypto/internal/foo"] = .ok r →
      (∀ S q, (S, q) ∈ r.ifaces → (S, q) ∈ sampleUniverse.ifs ∨
        fromIncluded sampleImp Scope.ifs
          [ascii "io", ascii "unsafe", ascii "crypto/internal/foo"] S q) ∧
      (∀ S q, (S, q) ∈ r.funcs → (S, q) ∈ sampleUniverse.funs ∨
        fromIncluded sampleImp Scope.funs
          [ascii "io", ascii "unsafe", ascii "crypto/internal/foo"] S q) :=
  ⟨fun m => List.Perm.refl m, rfl,
    (exclusion_law sampleExported sampleUniverse sampleImp id
      [ascii "io", ascii "unsafe", ascii "crypto/internal/foo"]
      (fun m => List.Perm.refl m)).1⟩

/-- C7: a call of `grabTypes` for a package (`all = false`) adds entries for
exported symbols only, so every entry of a final registry, and every row of
the assembled table, is an entry of the universal scope or comes from a symbol
of a package for which the export predicate is true. -/
theorem visibility_law (Exported : GoString → Bool) (universal : Scope)
    (imp : GoString → Except GoError Scope) (rangeOrder : GoMap → GoMap)
    (pkgs : List GoString) (hrange : ∀ m, (rangeOrder m).Perm m) :
    (∀ (r : Registries) (path : GoString) (scope : Scope),
      (∀ S q, (S, q) ∈ (grabTypes Exported r path scope false).ifaces →
        (S, q) ∈ r.ifaces ∨
          ∃ n, (S, n) ∈ scope.ifs ∧ Exported n = true ∧ q = fullName path n) ∧
      (∀ S q, (S, q) ∈ (grabTypes Exported r path scope false).funcs →
        (S, q) ∈ r.funcs ∨
          ∃ n, (S, n) ∈ scope.funs ∧ Exported n = true ∧ q = fullName path n)) ∧
    (∀ r, harvest Exported universal imp pkgs = .ok r →
      (∀ S q, (S, q) ∈ r.ifaces →
        (S, q) ∈ universal.ifs ∨ fromExported Exported imp Scope.ifs pkgs S q) ∧
      (∀ S q, (S, q) ∈ r.funcs →
        (S, q) ∈ universal.funs ∨ fromExported Exported imp Scope.funs pkgs S q)) ∧
    (∀ t, generate Exported universal imp rangeOrder pkgs = .ok t →
      (∀ e ∈ t.Ifaces, (e.Typ, e.Path) ∈ universal.ifs ∨
        fromExported Exported imp Scope.ifs pkgs e.Typ e.Path) ∧
      (∀ e ∈ t.Funcs, (e.Typ, e.Path) ∈ universal.funs ∨
        fromExported Exported imp Scope.funs pkgs e.Typ e.Path)) := by
  have step : ∀ (path : GoString) (entries reg : GoMap) (S q : GoString),
      (S, q) ∈ grabLoop Exported path false reg entries →
      (S, q) ∈ reg ∨ ∃ n, (S, n) ∈ entries ∧ Exported n = true ∧ q = fullName path n := by
    intro path entries reg S q hm
    rcases grabLoop_mem_origin Exported path false entries reg S q hm with
      h1 | ⟨n, hn, hel, hq⟩
    · exact Or.inl h1
    · rcases hel with hf | hE
      · cases hf
      · exact Or.inr ⟨n, hn, hE, hq⟩
  have key : ∀ r, harvest Exported universal imp pkgs = .ok r →
      (∀ S q, (S, q) ∈ r.ifaces →
        (S, q) ∈ universal.ifs ∨ fromExported Exported imp Scope.ifs pkgs S q) ∧
      (∀ S q, (S, q) ∈ r.funcs →
        (S, q) ∈ universal.funs ∨ fromExported Exported imp Scope.funs pkgs S q) := by
    intro r h
    obtain ⟨h1, h2⟩ := harvest_proj Exported universal imp pkgs r h
    constructor
    · intro S q hm
      rcases harvestReg_mem_origin Exported imp Scope.ifs pkgs _ _ h1 S q hm with
        hu | ⟨p, scope, n, hp, _, hi, hn, hE, hq⟩
      · exact Or.inl hu
      · exact Or.inr ⟨p, scope, n, hp, hi, hn, hE, hq⟩
    · intro S q hm
      rcases harvestReg_mem_origin Exported imp Scope.funs pkgs _ _ h2 S q hm with
        hu | ⟨p, scope, n, hp, _, hi, hn, hE, hq⟩
      · exact Or.inl hu
      · exact Or.inr ⟨p, scope, n, hp, hi, hn, hE, hq⟩
  refine ⟨fun r path scope => ⟨fun S q hm => step path scope.ifs r.ifaces S q hm,
    fun S q hm => step path scope.funs r.funcs S q hm⟩, key, ?_⟩
  intro t ht
  obtain ⟨r, hr, rfl⟩ := generate_ok Exported universal imp rangeOrder pkgs t ht
  obtain ⟨k1, k2⟩ := key r hr
  exact ⟨fun e he => k1 _ _ ((hrange _).mem_iff.mp (prepare_mem _ pkgs e he)),
    fun e he => k2 _ _ ((hrange _).mem_iff.mp (prepare_mem _ pkgs e he))⟩


theorem visibility_law_witness :
    (∀ m : GoMap, (id m).Perm m) ∧
    harvest sampleExported sampleUniverse sampleImp [ascii "io", ascii "os"]
      = .ok sampleRegistries ∧
    ∀ r, harvest sampleExported sampleUniverse sampleImp [ascii "io", ascii "os"] = .ok r →
      (∀ S q, (S, q) ∈ r.ifaces → (S, q) ∈ sampleUniverse.ifs ∨
        fromExported sampleExported sampleImp Scope.ifs [ascii "io", ascii "os"] S q) ∧
      (∀ S q, (S, q) ∈ r.funcs → (S, q) ∈ sampleUniverse.funs ∨
        fromExported sampleExported sampleImp Scope.funs [ascii "io", ascii "os"] S q) :=
  ⟨fun m => List.Perm.refl m, rfl,
    (visibility_law sampleExported sampleUniverse sampleImp id [ascii "io", ascii "os"]
      (fun m => List.Perm.refl m)).2.1⟩

/-! ## The table assembler: results -/

/-- C8, as the code has it: when the harvested paths of `pkgs` are pairwise
distinct, non-empty and dot-free, and the symbol names of every extracted map
are dot-free and pairwise distinct, `prepare(registry, pkgs)` holds each entry
of the harvested registry once and nothing else, in whatever order the registry
is enumerated. -/
theorem prepare_reorders_registry (Exported : GoString → Bool) (universal : Scope)
    (imp : GoString → Except GoError Scope) (pkgs : List GoString) (r : Registries)
    (h : harvest Exported universal imp pkgs = .ok r)
    (hpk : (pkgs.filter (fun p => !skipped p)).Nodup)
    (hpaths : ∀ p ∈ pkgs, skipped p = false → p ≠ [] ∧ dot ∉ p)
    (huni : identNames universal.ifs ∧ identNames universal.funs)
    (hsc : ∀ p ∈ pkgs, skipped p = false → ∀ scope, imp p = .ok scope →
      identNames scope.ifs ∧ identNames scope.funs) :
    (∀ en, en.Perm r.ifaces →
      (prepare en pkgs).Perm (r.ifaces.map toRow) ∧ (prepare en pkgs).Nodup) ∧
    (∀ en, en.Perm r.funcs →
      (prepare en pkgs).Perm (r.funcs.map toRow) ∧ (prepare en pkgs).Nodup) := by
  have key : ∀ reg : GoMap, (reg.map Prod.snd).Nodup →
      (∀ e ∈ reg, (([] : GoString) :: pkgs).countP (fun p => decide (pkgName e.2 = p)) = 1) →
      ∀ en, en.Perm reg →
        (prepare en pkgs).Perm (reg.map toRow) ∧ (prepare en pkgs).Nodup := by
    intro reg hnd hcount en hen
    have hnd' : (en.map Prod.snd).Nodup := (hen.map Prod.snd).nodup_iff.mpr hnd
    have hperm : (prepare en pkgs).Perm (reg.map toRow) :=
      (prepare_perm en pkgs hnd' (fun e he => hcount e (hen.mem_iff.mp he))).trans
        (hen.map toRow)
    exact ⟨hperm, hperm.nodup_iff.mpr
      ((List.Nodup.of_map Prod.snd hnd).map toRow_injective)⟩
  obtain ⟨h1, h2⟩ := harvest_proj Exported universal imp pkgs r h
  obtain ⟨a1, a2⟩ := harvestReg_prepare_ready Exported imp Scope.ifs pkgs _ _ h1 hpk hpaths
    huni.1 (fun p hp hs scope hi => (hsc p hp hs scope hi).1)
  obtain ⟨b1, b2⟩ := harvestReg_prepare_ready Exported imp Scope.funs pkgs _ _ h2 hpk hpaths
    huni.2 (fun p hp hs scope hi => (hsc p hp hs scope hi).2)
  exact ⟨key r.ifaces a1 a2, key r.funcs b1 b2⟩

theorem prepare_reorders_registry_witness :
    harvest sampleExported sampleUniverse sampleImp [ascii "io", ascii "os"]
      = .ok sampleRegistries ∧
    ((∀ en, en.Perm sampleRegistries.ifaces →
      (prepare en [ascii "io", ascii "os"]).Perm (sampleRegistries.ifaces.map toRow) ∧
        (prepare en [ascii "io", ascii "os"]).Nodup) ∧
    (∀ en, en.Perm sampleRegistries.funcs →
      (prepare en [ascii "io", ascii "os"]).Perm (sampleRegistries.funcs.map toRow) ∧
        (prepare en [ascii "io", ascii "os"]).Nodup)) := by
  refine ⟨rfl, prepare_reorders_registry sampleExported sampleUniverse sampleImp
    [ascii "io", ascii "os"] sampleRegistries rfl (by decide) (by decide)
    ⟨⟨by decide, by decide⟩, ⟨by decide, by decide⟩⟩ ?_⟩
  intro p hp _ scope hi
  rcases List.mem_cons.mp hp with hio | hp'
  · subst hio
    have hs : scope = sampleIo := (Except.ok.inj hi).symm
    subst hs
    exact ⟨⟨by decide, by decide⟩, ⟨by decide, by decide⟩⟩
  · have hos : p = ascii "os" := List.mem_singleton.mp hp'
    subst hos
    have hs : scope = sampleOs := (Except.ok.inj hi).symm
    subst hs
    exact ⟨⟨by decide, by decide⟩, ⟨by decide, by decide⟩⟩

/-- C8 fails as stated. With the path `io` listed twice, the entry of
`io.Reader` is in the table twice; with a dotted path `a.b`, the entries
harvested from it are filed under `a` and are not in the table at all. -/
theorem prepare_not_a_reordering :
    (harvest sampleExported sampleUniverse sampleImp [ascii "io", ascii "io"] = .ok
        { ifaces := [(ascii "Error", ascii "error"), (ascii "Read", ascii "io.Reader")]
          funcs := [(ascii "func()", ascii "io.Thunk")] } ∧
      prepare [(ascii "Error", ascii "error"), (ascii "Read", ascii "io.Reader")]
          [ascii "io", ascii "io"]
        = [{ Typ := ascii "Error", Path := ascii "error" },
           { Typ := ascii "Read", Path := ascii "io.Reader" },
           { Typ := ascii "Read", Path := ascii "io.Reader" }]) ∧
    (harvest sampleExported sampleUniverse (fun _ => .ok sampleOs) [ascii "a.b"] = .ok
        { ifaces := [(ascii "Error", ascii "error"), (ascii "Read", ascii "a.b.File"),
                     (ascii "Close", ascii "a.b.Handle")]
          funcs := [(ascii "func()", ascii "a.b.Hook")] } ∧
      prepare [(ascii "Error", ascii "error"), (ascii "Read", ascii "a.b.File"),
               (ascii "Close", ascii "a.b.Handle")] [ascii "a.b"]
        = [{ Typ := ascii "Error", Path := ascii "error" }]) :=
  ⟨⟨rfl, by decide⟩, ⟨rfl, by decide⟩⟩

/-- The table by the paths `pkgName` files the names under: the group of the
empty path, followed by the group of each path of `pkgs` in the order of `pkgs`;
the group of a path holds the qualified names of the registry filed under that
path, in ascending alphabetical order, each row an entry of the registry. -/
theorem prepare_grouped (entries : GoMap) (pkgs : List GoString) :
    ∃ group : GoString → List pkgType,
      prepare entries pkgs = group [] ++ (pkgs.map group).flatten ∧
      ∀ path,
        (group path).Pairwise (fun a b => strLess a.Path b.Path = true ∨ a.Path = b.Path) ∧
        ((group path).map pkgType.Path).Perm
          ((entries.filter (fun e => decide (pkgName e.2 = path))).map Prod.snd) ∧
        ∀ e ∈ group path, pkgName e.Path = path ∧ (e.Typ, e.Path) ∈ entries := by
  refine ⟨addNames (prepareLoop entries) [], prepare_eq_groups entries pkgs, fun path =>
    ⟨?_, addNames_paths_perm entries path, fun e he => addNames_mem entries path e he⟩⟩
  refine List.Pairwise.imp ?_ (addNames_sorted entries path)
  intro a b hab
  cases hab' : strLess a.Path b.Path with
  | true => exact Or.inl rfl
  | false => exact Or.inr (strLess_connex a.Path b.Path hab' hab)


/-- C9, as the code has it: for a registry whose qualified names are
`fullName(path, name)` of a path and a symbol name without a dot, the table is
the rows owned by the universal scope (empty path), followed by the rows owned
by each path of `pkgs` in the order of `pkgs`; the rows of a path are those of
the entries it owns, in ascending alphabetical order of the qualified name. -/
theorem prepare_grouped_by_owner (owned : List Owned) (pkgs : List GoString)
    (hdot : ∀ o ∈ owned, dot ∉ o.path ∧ dot ∉ o.name) :
    ∃ group : GoString → List pkgType,
      prepare (owned.map Owned.entry) pkgs = group [] ++ (pkgs.map group).flatten ∧
      ∀ path,
        (group path).Pairwise (fun a b => strLess a.Path b.Path = true ∨ a.Path = b.Path) ∧
        ((group path).map pkgType.Path).Perm
          ((owned.filter (fun o => decide (o.path = path))).map
            (fun o => fullName o.path o.name)) ∧
        (∀ e ∈ group path, ∃ o ∈ owned, o.path = path ∧ (e.Typ, e.Path) = o.entry) ∧
        (((owned.map Owned.entry).map Prod.snd).Nodup →
          (group path).Perm
            ((owned.filter (fun o => decide (o.path = path))).map (fun o => toRow o.entry))) := by
  have hfile : ∀ o ∈ owned, pkgName o.entry.2 = o.path := fun o ho =>
    pkgName_fullName_of_no_dot o.path o.name (hdot o ho).1 (hdot o ho).2
  have hfilter : ∀ path,
      (owned.map Owned.entry).filter (fun e => decide (pkgName e.2 = path))
        = (owned.filter (fun o => decide (o.path = path))).map Owned.entry := by
    intro path
    rw [List.filter_map]
    congr 1
    apply List.filter_congr
    intro o ho
    simp only [Function.comp, hfile o ho]
  refine ⟨addNames (prepareLoop (owned.map Owned.entry)) [],
    prepare_eq_groups (owned.map Owned.entry) pkgs, fun path => ⟨?_, ?_, ?_, ?_⟩⟩
  · refine List.Pairwise.imp ?_ (addNames_sorted (owned.map Owned.entry) path)
    intro a b hab
    cases hab' : strLess a.Path b.Path with
    | true => exact Or.inl rfl
    | false => exact Or.inr (strLess_connex a.Path b.Path hab' hab)
  · have h := addNames_paths_perm (owned.map Owned.entry) path
    rw [hfilter path, List.map_map] at h
    exact h
  · intro e he
    obtain ⟨hp, hmem⟩ := addNames_mem (owned.map Owned.entry) path e he
    obtain ⟨o, ho, hoe⟩ := List.mem_map.mp hmem
    refine ⟨o, ho, ?_, hoe.symm⟩
    rw [← hfile o ho, hoe]
    exact hp
  · intro hnd
    have h := addNames_perm_of_nodup (owned.map Owned.entry) hnd path
    rw [hfilter path, List.map_map] at h
    exact h

theorem prepare_grouped_by_owner_witness :
    (∀ o ∈ [({ sig := ascii "Error", path := [], name := ascii "error" } : Owned),
            { sig := ascii "Close", path := ascii "os", name := ascii "Handle" },
            { sig := ascii "Read", path := ascii "io", name := ascii "Reader" }],
      dot ∉ o.path ∧ dot ∉ o.name) ∧
    prepare ([({ sig := ascii "Error", path := [], name := ascii "error" } : Owned),
            { sig := ascii "Close", path := ascii "os", name := ascii "Handle" },
            { sig := ascii "Read", path := ascii "io", name := ascii "Reader" }].map
        Owned.entry) [ascii "io", ascii "os"]
      = [{ Typ := ascii "Error", Path := ascii "error" },
         { Typ := ascii "Read", Path := ascii "io.Reader" },
         { Typ := ascii "Close", Path := ascii "os.Handle" }] ∧
    ∃ group : GoString → List pkgType,
      prepare ([({ sig := ascii "Error", path := [], name := ascii "error" } : Owned),
            { sig := ascii "Close", path := ascii "os", name := ascii "Handle" },
            { sig := ascii "Read", path := ascii "io", name := ascii "Reader" }].map
          Owned.entry) [ascii "io", ascii "os"]
        = group [] ++ ([ascii "io", ascii "os"].map group).flatten :=
  ⟨by decide, by decide,
    (prepare_grouped_by_owner
      [{ sig := ascii "Error", path := [], name := ascii "error" },
       { sig := ascii "Close", path := ascii "os", name := ascii "Handle" },
       { sig := ascii "Read", path := ascii "io", name := ascii "Reader" }]
      [ascii "io", ascii "os"] (by decide)).imp (fun _ h => h.1)⟩

/-- C9 fails as stated. With the packages `a` and `a.B` in this order, the row
of `a.B.C`, owned by the later package `a.B`, is filed under `a` and comes
before the row of `a.Zed`, owned by `a`; the group of `a.B` is empty. -/
theorem prepare_groups_by_first_dot :
    processingOrder [ascii "a.B", ascii "a"] = [ascii "a", ascii "a.B"] ∧
    harvest sampleExported { ifs := [], funs := [] } sampleImpDotted [ascii "a", ascii "a.B"]
      = .ok { ifaces := [(ascii "Z()", fullName (ascii "a") (ascii "Zed")),
                         (ascii "M()", fullName (ascii "a.B") (ascii "C"))]
              funcs := [] } ∧
    prepare [(ascii "Z()", fullName (ascii "a") (ascii "Zed")),
             (ascii "M()", fullName (ascii "a.B") (ascii "C"))] [ascii "a", ascii "a.B"]
      = [{ Typ := ascii "M()", Path := fullName (ascii "a.B") (ascii "C") },
         { Typ := ascii "Z()", Path := fullName (ascii "a") (ascii "Zed") }] ∧
    pkgName (fullName (ascii "a.B") (ascii "C")) = ascii "a" :=
  ⟨by decide, rfl, by decide, by decide⟩

/-! ## Qualified names: results -/

/-- C10, as the code has it: for a path without a dot and a symbol name without
a dot, `pkgName(fullName(path, name)) = path`; in particular `pkgName` of a
bare universal name is the empty string. -/
theorem pkgName_fullName (path name : GoString) (hp : dot ∉ path) (hn : dot ∉ name) :
    pkgName (fullName path name) = path ∧ pkgName (fullName [] name) = [] :=
  ⟨pkgName_fullName_of_no_dot path name hp hn,
    pkgName_fullName_of_no_dot [] name (by simp) hn⟩


theorem pkgName_fullName_witness :
    dot ∉ ascii "io" ∧ dot ∉ ascii "Reader" ∧
    (pkgName (fullName (ascii "io") (ascii "Reader")) = ascii "io" ∧
      pkgName (fullName [] (ascii "Reader")) = []) :=
  ⟨by decide, by decide, pkgName_fullName (ascii "io") (ascii "Reader") (by decide) (by decide)⟩

/-- C10 fails for a path with a dot: the qualified name of `Node` in
`gopkg.in/yaml.v2` is filed under `gopkg`. -/
theorem pkgName_fullName_dotted_path :
    dot ∉ ascii "Node" ∧
    pkgName (fullName (ascii "gopkg.in/yaml.v2") (ascii "Node")) = ascii "gopkg" ∧
    pkgName (fullName (ascii "gopkg.in/yaml.v2") (ascii "Node")) ≠ ascii "gopkg.in/yaml.v2" := by
  decide

/-! ### Further facts about `byLength.Less` -/

theorem byLengthLess_irrefl (a : GoString) : byLengthLess a a = false := by
  simp [byLengthLess, strLess_irrefl]

theorem byLengthLess_trans (a b c : GoString)
    (h1 : byLengthLess a b = true) (h2 : byLengthLess b c = true) :
    byLengthLess a c = true := by
  cases hac : byLengthLess a c with
  | true => rfl
  | false =>
    have hbc : byLengthLess b c = false :=
      byLengthLess_le_trans c a b hac (byLengthLess_asymm a b h1)
    rw [hbc] at h2
    cases h2

theorem byLengthLess_true_iff (a b : GoString) :
    byLengthLess a b = true ↔
      a.length < b.length ∨ (a.length = b.length ∧ strLess a b = true) := by
  unfold byLengthLess
  by_cases h : a.length = b.length
  · simp [h]
  · simp [h]

/-! ## The comparison of the orderer: results -/

/-- C14: `byLength.Less(a, b)` holds iff `a` is shorter than `b`, or as long
and lexicographically smaller; it is a strict total order on strings:
irreflexive, transitive, and of two distinct strings exactly one is less than
the other. -/
theorem byLengthLess_strict_total_order :
    (∀ a b : GoString, byLengthLess a b = true ↔
      a.length < b.length ∨ (a.length = b.length ∧ strLess a b = true)) ∧
    (∀ a : GoString, byLengthLess a a = false) ∧
    (∀ a b c : GoString, byLengthLess a b = true → byLengthLess b c = true →
      byLengthLess a c = true) ∧
    (∀ a b : GoString, a ≠ b →
      (byLengthLess a b = true ∧ byLengthLess b a = false) ∨
      (byLengthLess a b = false ∧ byLengthLess b a = true)) := by
  refine ⟨byLengthLess_true_iff, byLengthLess_irrefl, byLengthLess_trans, ?_⟩
  intro a b hab
  cases h1 : byLengthLess a b with
  | true => exact Or.inl ⟨rfl, byLengthLess_asymm a b h1⟩
  | false =>
    cases h2 : byLengthLess b a with
    | true => exact Or.inr ⟨rfl, rfl⟩
    | false => exact absurd (byLengthLess_connex a b h1 h2) hab

/-! ### Further facts about the package loop -/

theorem harvestPkgs_cons_skipped (Exported : GoString → Bool)
    (imp : GoString → Except GoError Scope) (r : Registries)
    (path : GoString) (rest : List GoString) (h : skipped path = true) :
    harvestPkgs Exported imp r (path :: rest) = harvestPkgs Exported imp r rest := by
  rcases (skipped_eq_true_iff path).mp h with h1 | h2
  · simp [harvestPkgs, h1]
  · by_cases h1 : path = unsafePath
    · simp [harvestPkgs, h1]
    · simp [harvestPkgs, h1, h2]

theorem harvestPkgs_cons_ok (Exported : GoString → Bool)
    (imp : GoString → Except GoError Scope) (r : Registries)
    (path : GoString) (rest : List GoString) (scope : Scope)
    (h : skipped path = false) (hi : imp path = .ok scope) :
    harvestPkgs Exported imp r (path :: rest)
      = harvestPkgs Exported imp (grabTypes Exported r path scope false) rest := by
  obtain ⟨h1, h2⟩ := skipped_eq_false path h
  simp [harvestPkgs, h1, h2, hi]

theorem harvestPkgs_cons_error (Exported : GoString → Bool)
    (imp : GoString → Except GoError Scope) (r : Registries)
    (path : GoString) (rest : List GoString) (err : GoError)
    (h : skipped path = false) (hi : imp path = .error err) :
    harvestPkgs Exported imp r (path :: rest) = .error err := by
  obtain ⟨h1, h2⟩ := skipped_eq_false path h
  simp [harvestPkgs, h1, h2, hi]

theorem harvestPkgs_append (Exported : GoString → Bool)
    (imp : GoString → Except GoError Scope) (pre post : List GoString) (r : Registries) :
    harvestPkgs Exported imp r (pre ++ post) =
      match harvestPkgs Exported imp r pre with
      | .ok mid => harvestPkgs Exported imp mid post
      | .error err => .error err := by
  induction pre generalizing r with
  | nil => simp [harvestPkgs]
  | cons path rest ih =>
    rw [List.cons_append]
    cases hs : skipped path with
    | true =>
      rw [harvestPkgs_cons_skipped _ _ _ _ _ hs, harvestPkgs_cons_skipped _ _ _ _ _ hs]
      exact ih r
    | false =>
      cases hi : imp path with
      | error err =>
        rw [harvestPkgs_cons_error _ _ _ _ _ err hs hi,
          harvestPkgs_cons_error _ _ _ _ _ err hs hi]
      | ok scope =>
        rw [harvestPkgs_cons_ok _ _ _ _ _ scope hs hi,
          harvestPkgs_cons_ok _ _ _ _ _ scope hs hi]
        exact ih _

/-- An exported symbol of a harvested package of the list has its signature
among the keys of the final registry. -/
theorem harvestReg_covers (Exported : GoString → Bool)
    (imp : GoString → Except GoError Scope) (sel : Scope → GoMap)
    (pkgs : List GoString) (reg reg' : GoMap)
    (h : harvestReg Exported imp sel reg pkgs = .ok reg')
    (p : GoString) (scope : Scope) (S n : GoString) (hp : p ∈ pkgs)
    (hs : skipped p = false) (hi : imp p = .ok scope) (hm : (S, n) ∈ sel scope)
    (hE : Exported n = true) : ∃ q, mapGet reg' S = some q := by
  induction pkgs generalizing reg with
  | nil => simp at hp
  | cons path rest ih =>
    rcases List.mem_cons.mp hp with heq | hrest
    · subst heq
      rw [harvestReg_cons_ok _ _ _ _ _ _ scope hs hi] at h
      obtain ⟨q, hq⟩ := grabLoop_covers Exported p false (sel scope) reg S n hm (Or.inr hE)
      exact ⟨q, harvestReg_mono Exported imp sel rest _ reg' h S q hq⟩
    · cases hs' : skipped path with
      | true =>
        rw [harvestReg_cons_skipped _ _ _ _ _ _ hs'] at h
        exact ih reg h hrest
      | false =>
        cases hi' : imp path with
        | error err =>
          rw [harvestReg_cons_error _ _ _ _ _ _ err hs' hi'] at h
          cases h
        | ok scope' =>
          rw [harvestReg_cons_ok _ _ _ _ _ _ scope' hs' hi'] at h
          exact ih _ h hrest

/-- A loop of `grabTypes` changes nothing when the signature of every eligible
symbol it visits is already a key. -/
theorem grabLoop_noop (Exported : GoString → Bool) (path : GoString) (all : Bool)
    (entries reg : GoMap)
    (h : ∀ e ∈ entries, all = true ∨ Exported e.2 = true → ∃ q, mapGet reg e.1 = some q) :
    grabLoop Exported path all reg entries = reg := by
  induction entries with
  | nil => rfl
  | cons e es ih =>
    have hstep : grabStep Exported path all reg e = reg := by
      rcases grabStep_cases Exported path all reg e with h1 | ⟨hnone, hel, _⟩
      · exact h1
      · obtain ⟨q, hq⟩ := h e (List.mem_cons_self _ _) hel
        rw [hnone] at hq
        cases hq
    show grabLoop Exported path all (grabStep Exported path all reg e) es = reg
    rw [hstep]
    exact ih (fun e' he' => h e' (List.mem_cons_of_mem _ he'))

/-- A second call of `grabTypes` for a map whose eligible signatures are all
keys, visited in any order, leaves the registry as it is. -/
theorem grabLoop_again (Exported : GoString → Bool) (path : GoString) (all : Bool)
    (entries entries' reg reg' : GoMap) (hperm : entries'.Perm entries)
    (hkeys : ∀ S, (∃ q, mapGet (grabLoop Exported path all reg entries) S = some q) →
      ∃ q, mapGet reg' S = some q) :
    grabLoop Exported path all reg' entries' = reg' := by
  apply grabLoop_noop
  intro e he hel
  apply hkeys
  have he' : (e.1, e.2) ∈ entries := hperm.mem_iff.mp he
  exact grabLoop_covers Exported path all entries reg e.1 e.2 he' hel

/-- A path that occurs earlier in the list may be dropped at a later place. -/
theorem harvestPkgs_drop_repeat (Exported : GoString → Bool)
    (imp : GoString → Except GoError Scope) (p : GoString) (mid post : List GoString)
    (r : Registries) :
    harvestPkgs Exported imp r (p :: (mid ++ p :: post))
      = harvestPkgs Exported imp r (p :: (mid ++ post)) := by
  cases hs : skipped p with
  | true =>
    rw [harvestPkgs_cons_skipped _ _ _ _ _ hs, harvestPkgs_cons_skipped _ _ _ _ _ hs]
    exact harvestPkgs_drop_skipped Exported imp mid post p ((skipped_eq_true_iff p).mp hs) r
  | false =>
    cases hi : imp p with
    | error err =>
      rw [harvestPkgs_cons_error _ _ _ _ _ err hs hi,
        harvestPkgs_cons_error _ _ _ _ _ err hs hi]
    | ok scope =>
      rw [harvestPkgs_cons_ok _ _ _ _ _ scope hs hi,
        harvestPkgs_cons_ok _ _ _ _ _ scope hs hi,
        harvestPkgs_append, harvestPkgs_append Exported imp mid post]
      cases hmid : harvestPkgs Exported imp (grabTypes Exported r p scope false) mid with
      | error err => rfl
      | ok m =>
        simp only []
        rw [harvestPkgs_cons_ok _ _ _ _ _ scope hs hi]
        obtain ⟨h1, h2⟩ := harvestPkgs_proj Exported imp mid _ m hmid
        have e1 : grabLoop Exported p false m.ifaces scope.ifs = m.ifaces :=
          grabLoop_again Exported p false scope.ifs scope.ifs r.ifaces m.ifaces
            (List.Perm.refl _)
            (fun S ⟨q, hq⟩ => ⟨q, harvestReg_mono Exported imp Scope.ifs mid _ _ h1 S q hq⟩)
        have e2 : grabLoop Exported p false m.funcs scope.funs = m.funcs :=
          grabLoop_again Exported p false scope.funs scope.funs r.funcs m.funcs
            (List.Perm.refl _)
            (fun S ⟨q, hq⟩ => ⟨q, harvestReg_mono Exported imp Scope.funs mid _ _ h2 S q hq⟩)
        have e : grabTypes Exported m p scope false = m := by
          unfold grabTypes
          rw [e1, e2]
        rw [e]

/-! ## Harvesting: further results -/

/-- C12: harvesting is idempotent against repeats. Once `grabTypes` has run
for a path and scope, a second call for the same path and scope (its maps
visited in any order) at any later state of the registries, one that still has
the keys of the first call, leaves both registries unchanged; so a list with a
duplicated path yields the registries of the list without the later duplicate. -/
theorem grabTypes_idempotent (Exported : GoString → Bool) (universal : Scope)
    (imp : GoString → Except GoError Scope) :
    (∀ (r later : Registries) (path : GoString) (scope scope' : Scope) (all : Bool),
      scope'.ifs.Perm scope.ifs → scope'.funs.Perm scope.funs →
      (∀ S, (∃ q, mapGet (grabTypes Exported r path scope all).ifaces S = some q) →
        ∃ q, mapGet later.ifaces S = some q) →
      (∀ S, (∃ q, mapGet (grabTypes Exported r path scope all).funcs S = some q) →
        ∃ q, mapGet later.funcs S = some q) →
      grabTypes Exported later path scope' all = later) ∧
    (∀ (r : Registries) (path : GoString) (scope : Scope) (all : Bool),
      grabTypes Exported (grabTypes Exported r path scope all) path scope all
        = grabTypes Exported r path scope all) ∧
    (∀ (pre mid post : List GoString) (p : GoString),
      harvest Exported universal imp (pre ++ p :: (mid ++ p :: post))
        = harvest Exported universal imp (pre ++ p :: (mid ++ post))) := by
  have general : ∀ (r later : Registries) (path : GoString) (scope scope' : Scope)
      (all : Bool), scope'.ifs.Perm scope.ifs → scope'.funs.Perm scope.funs →
      (∀ S, (∃ q, mapGet (grabTypes Exported r path scope all).ifaces S = some q) →
        ∃ q, mapGet later.ifaces S = some q) →
      (∀ S, (∃ q, mapGet (grabTypes Exported r path scope all).funcs S = some q) →
        ∃ q, mapGet later.funcs S = some q) →
      grabTypes Exported later path scope' all = later := by
    intro r later path scope scope' all hp1 hp2 hk1 hk2
    have e1 := grabLoop_again Exported path all scope.ifs scope'.ifs r.ifaces later.ifaces
      hp1 hk1
    have e2 := grabLoop_again Exported path all scope.funs scope'.funs r.funcs later.funcs
      hp2 hk2
    unfold grabTypes
    rw [e1, e2]
  refine ⟨general, ?_, ?_⟩
  · intro r path scope all
    exact general r _ path scope scope all (List.Perm.refl _) (List.Perm.refl _)
      (fun _ h => h) (fun _ h => h)
  · intro pre mid post p
    unfold harvest
    rw [harvestPkgs_append, harvestPkgs_append Exported imp pre (p :: (mid ++ post))]
    cases harvestPkgs Exported imp
        (grabTypes Exported { ifaces := [], funcs := [] } [] universal true) pre with
    | error err => rfl
    | ok m => exact harvestPkgs_drop_repeat Exported imp p mid post m

/-- C13: both registries start empty and only grow. A call of `grabTypes`
keeps every entry it finds, and the registries after the universal scope and
any prefix of the list are sub-maps of the final registries. -/
theorem registries_monotone (Exported : GoString → Bool) (universal : Scope)
    (imp : GoString → Except GoError Scope) :
    (∀ pkgs, harvest Exported universal imp pkgs
      = harvestPkgs Exported imp
          (grabTypes Exported { ifaces := [], funcs := [] } [] universal true) pkgs) ∧
    (∀ (r : Registries) (path : GoString) (scope : Scope) (all : Bool) (S q : GoString),
      (mapGet r.ifaces S = some q →
        mapGet (grabTypes Exported r path scope all).ifaces S = some q) ∧
      (mapGet r.funcs S = some q →
        mapGet (grabTypes Exported r path scope all).funcs S = some q)) ∧
    (∀ (pre post : List GoString) (r : Registries),
      harvest Exported universal imp (pre ++ post) = .ok r →
      ∃ r₁, harvest Exported universal imp pre = .ok r₁ ∧
        (∀ S q, mapGet r₁.ifaces S = some q → mapGet r.ifaces S = some q) ∧
        (∀ S q, mapGet r₁.funcs S = some q → mapGet r.funcs S = some q)) := by
  refine ⟨fun _ => rfl, ?_, ?_⟩
  · intro r path scope all S q
    exact ⟨grabLoop_mono Exported path all scope.ifs r.ifaces S q,
      grabLoop_mono Exported path all scope.funs r.funcs S q⟩
  · intro pre post r h
    unfold harvest at h ⊢
    rw [harvestPkgs_append] at h
    cases hpre : harvestPkgs Exported imp
        (grabTypes Exported { ifaces := [], funcs := [] } [] universal true) pre with
    | error err => rw [hpre] at h; cases h
    | ok m =>
      rw [hpre] at h
      simp only [] at h
      obtain ⟨h1, h2⟩ := harvestPkgs_proj Exported imp post m r h
      exact ⟨m, rfl,
        fun S q hq => harvestReg_mono Exported imp Scope.ifs post _ _ h1 S q hq,
        fun S q hq => harvestReg_mono Exported imp Scope.funs post _ _ h2 S q hq⟩

/-- C17: a signature is a key of a final registry iff the universal scope
produces it or an exported symbol of a package of the list that is not skipped
does; a symbol that is not exported leaves the registry as it is, so it cannot
block a later exported symbol with the same signature. -/
theorem registry_keys_iff (Exported : GoString → Bool) (universal : Scope)
    (imp : GoString → Except GoError Scope) (pkgs : List GoString) (r : Registries)
    (h : harvest Exported universal imp pkgs = .ok r) :
    (∀ S, (∃ q, mapGet r.ifaces S = some q) ↔
      ((∃ n, (S, n) ∈ universal.ifs) ∨
        ∃ p scope n, p ∈ pkgs ∧ skipped p = false ∧ imp p = .ok scope ∧
          (S, n) ∈ scope.ifs ∧ Exported n = true)) ∧
    (∀ S, (∃ q, mapGet r.funcs S = some q) ↔
      ((∃ n, (S, n) ∈ universal.funs) ∨
        ∃ p scope n, p ∈ pkgs ∧ skipped p = false ∧ imp p = .ok scope ∧
          (S, n) ∈ scope.funs ∧ Exported n = true)) ∧
    (∀ (reg : GoMap) (path : GoString) (e : GoString × GoString),
      Exported e.2 = false → grabStep Exported path false reg e = reg) := by
  have key : ∀ (sel : Scope → GoMap) (uni reg' : GoMap),
      harvestReg Exported imp sel (grabLoop Exported [] true [] uni) pkgs = .ok reg' →
      ∀ S, (∃ q, mapGet reg' S = some q) ↔
        ((∃ n, (S, n) ∈ uni) ∨
          ∃ p scope n, p ∈ pkgs ∧ skipped p = false ∧ imp p = .ok scope ∧
            (S, n) ∈ sel scope ∧ Exported n = true) := by
    intro sel uni reg' hr S
    constructor
    · rintro ⟨q, hq⟩
      rcases harvestReg_universal_origin Exported imp sel pkgs uni reg' hr S q hq with
        ⟨n, hn, _⟩ | ⟨p, scope, n, hp, hs, hi, hn, hE, _⟩
      · exact Or.inl ⟨n, hn⟩
      · exact Or.inr ⟨p, scope, n, hp, hs, hi, hn, hE⟩
    · rintro (⟨n, hn⟩ | ⟨p, scope, n, hp, hs, hi, hn, hE⟩)
      · obtain ⟨q, hq⟩ := grabLoop_covers Exported [] true uni [] S n hn (Or.inl rfl)
        exact ⟨q, harvestReg_mono Exported imp sel pkgs _ reg' hr S q hq⟩
      · exact harvestReg_covers Exported imp sel pkgs _ reg' hr p scope S n hp hs hi hn hE
  obtain ⟨h1, h2⟩ := harvest_proj Exported universal imp pkgs r h
  refine ⟨key Scope.ifs _ _ h1, key Scope.funs _ _ h2, ?_⟩
  intro reg path e hE
  simp [grabStep, hE]


theorem registry_keys_iff_witness :
    harvest sampleExported sampleUniverse sampleImp [ascii "io", ascii "os"]
      = .ok sampleRegistries ∧
    ∀ S, (∃ q, mapGet sampleRegistries.ifaces S = some q) ↔
      ((∃ n, (S, n) ∈ sampleUniverse.ifs) ∨
        ∃ p scope n, p ∈ [ascii "io", ascii "os"] ∧ skipped p = false ∧
          sampleImp p = .ok scope ∧ (S, n) ∈ scope.ifs ∧ sampleExported n = true) :=
  ⟨rfl, (registry_keys_iff sampleExported sampleUniverse sampleImp [ascii "io", ascii "os"]
    sampleRegistries rfl).1⟩

/-- C16: the package list of the table is the list `generate` received, in the
same order and with nothing removed; skipped and duplicated paths are listed. -/
theorem table_pkgs_verbatim (Exported : GoString → Bool) (universal : Scope)
    (imp : GoString → Except GoError Scope) (rangeOrder : GoMap → GoMap)
    (pkgs : List GoString) (t : Table)
    (h : generate Exported universal imp rangeOrder pkgs = .ok t) : t.Pkgs = pkgs := by
  obtain ⟨r, _, ht⟩ := generate_ok Exported universal imp rangeOrder pkgs t h
  rw [ht]


theorem table_pkgs_verbatim_witness :
    generate sampleExported sampleUniverse sampleImp id
        [ascii "io", ascii "io", ascii "unsafe", ascii "crypto/internal/foo"] = .ok
      { Pkgs := [ascii "io", ascii "io", ascii "unsafe", ascii "crypto/internal/foo"]
        Ifaces := [{ Typ := ascii "Error", Path := ascii "error" },
                   { Typ := ascii "Read", Path := ascii "io.Reader" },
                   { Typ := ascii "Read", Path := ascii "io.Reader" }]
        Funcs := [{ Typ := ascii "func()", Path := ascii "io.Thunk" },
                  { Typ := ascii "func()", Path := ascii "io.Thunk" }] } ∧
    ({ Pkgs := [ascii "io", ascii "io", ascii "unsafe", ascii "crypto/internal/foo"]
       Ifaces := [{ Typ := ascii "Error", Path := ascii "error" },
                  { Typ := ascii "Read", Path := ascii "io.Reader" },
                  { Typ := ascii "Read", Path := ascii "io.Reader" }]
       Funcs := [{ Typ := ascii "func()", Path := ascii "io.Thunk" },
                 { Typ := ascii "func()", Path := ascii "io.Thunk" }] } : Table).Pkgs
      = [ascii "io", ascii "io", ascii "unsafe", ascii "crypto/internal/foo"] :=
  ⟨rfl, table_pkgs_verbatim sampleExported sampleUniverse sampleImp id
    [ascii "io", ascii "io", ascii "unsafe", ascii "crypto/internal/foo"] _ rfl⟩

/-! ### Facts about enumeration order -/

/-- The lookups after a loop of `grabTypes` do not depend on the order in which
the extracted map is visited. -/
theorem grabLoop_lookup_perm (Exported : GoString → Bool) (path : GoString) (all : Bool)
    (entries entries' reg : GoMap) (hperm : entries'.Perm entries)
    (hnd : (entries.map Prod.fst).Nodup) (S : GoString) :
    mapGet (grabLoop Exported path all reg entries') S
      = mapGet (grabLoop Exported path all reg entries) S := by
  have hnd' : (entries'.map Prod.fst).Nodup := (hperm.map Prod.fst).nodup_iff.mpr hnd
  cases hreg : mapGet reg S with
  | some q =>
    rw [grabLoop_mono Exported path all entries' reg S q hreg,
      grabLoop_mono Exported path all entries reg S q hreg]
  | none =>
    by_cases hex : ∃ n, (S, n) ∈ entries ∧ (all = true ∨ Exported n = true)
    · obtain ⟨n, hn, hel⟩ := hex
      rw [grabLoop_records Exported path all entries' reg hnd' S n (hperm.mem_iff.mpr hn)
          hel hreg,
        grabLoop_records Exported path all entries reg hnd S n hn hel hreg]
    · have none_of : ∀ l : GoMap, (∀ x, x ∈ l → x ∈ entries) →
          mapGet (grabLoop Exported path all reg l) S = none := by
        intro l hl
        cases hget : mapGet (grabLoop Exported path all reg l) S with
        | none => rfl
        | some q =>
          exfalso
          rcases grabLoop_origin Exported path all l reg S q hget with h1 | ⟨n, hn, hel, _⟩
          · rw [hreg] at h1
            cases h1
          · exact hex ⟨n, hl _ hn, hel⟩
      rw [none_of entries' (fun x hx => hperm.mem_iff.mp hx), none_of entries (fun x hx => hx)]

/-- Two maps with pairwise distinct keys and the same lookups have the same
entries. -/
theorem perm_of_mapGet_eq (m₁ m₂ : GoMap) (h₁ : (m₁.map Prod.fst).Nodup)
    (h₂ : (m₂.map Prod.fst).Nodup) (h : ∀ S, mapGet m₁ S = mapGet m₂ S) : m₁.Perm m₂ := by
  rw [List.perm_ext_iff_of_nodup (List.Nodup.of_map Prod.fst h₁)
    (List.Nodup.of_map Prod.fst h₂)]
  intro e
  constructor
  · intro he
    have := mapGet_of_mem m₁ h₁ e.1 e.2 he
    rw [h] at this
    exact mem_of_mapGet m₂ e.1 e.2 this
  · intro he
    have := mapGet_of_mem m₂ h₂ e.1 e.2 he
    rw [← h] at this
    exact mem_of_mapGet m₁ e.1 e.2 this

/-- The group `addNames` appends for a path does not depend on the order in
which the registry is enumerated, when qualified names are pairwise distinct. -/
theorem addNames_perm_invariant (en₁ en₂ : GoMap) (hperm : en₁.Perm en₂)
    (hnd : (en₂.map Prod.snd).Nodup) (path : GoString) :
    addNames (prepareLoop en₁) [] path = addNames (prepareLoop en₂) [] path := by
  have hnd₁ : (en₁.map Prod.snd).Nodup := (hperm.map Prod.snd).nodup_iff.mpr hnd
  unfold addNames
  simp only [List.nil_append]
  rw [prepareLoop_pkgNames, prepareLoop_pkgNames]
  have hl : ((en₁.filter (fun e => decide (pkgName e.2 = path))).map Prod.snd).Perm
      ((en₂.filter (fun e => decide (pkgName e.2 = path))).map Prod.snd) :=
    (hperm.filter _).map _
  have hsort : sortSort byAlphLess
        ((en₁.filter (fun e => decide (pkgName e.2 = path))).map Prod.snd)
      = sortSort byAlphLess
        ((en₂.filter (fun e => decide (pkgName e.2 = path))).map Prod.snd) :=
    sortSort_unique byAlphLess strLess_asymm strLess_le_trans
      (fun a b h1 h2 => strLess_connex a b h1 h2) _ _
      ((sortSort_perm byAlphLess _).trans hl)
      (sortSort_sorted byAlphLess strLess_asymm strLess_le_trans _)
  rw [hsort]
  apply List.map_congr_left
  intro f hf
  have hf₂ : f ∈ (en₂.filter (fun e => decide (pkgName e.2 = path))).map Prod.snd :=
    (sortSort_perm byAlphLess _).mem_iff.mp hf
  obtain ⟨e, he, hef⟩ := List.mem_map.mp hf₂
  have he₂ : (e.1, f) ∈ en₂ := by
    rw [← hef]
    exact (List.mem_filter.mp he).1
  rw [prepareLoop_nameTypes_of_nodup en₂ hnd e.1 f he₂,
    prepareLoop_nameTypes_of_nodup en₁ hnd₁ e.1 f (hperm.mem_iff.mpr he₂)]

theorem prepare_perm_invariant (en₁ en₂ : GoMap) (pkgs : List GoString)
    (hperm : en₁.Perm en₂) (hnd : (en₂.map Prod.snd).Nodup) :
    prepare en₁ pkgs = prepare en₂ pkgs := by
  rw [prepare_eq_groups, prepare_eq_groups]
  have hfun : addNames (prepareLoop en₁) [] = addNames (prepareLoop en₂) [] :=
    funext (fun path => addNames_perm_invariant en₁ en₂ hperm hnd path)
  rw [hfun]

/-! ## Enumeration order: results -/

/-- C15: for a registry whose qualified names are pairwise distinct and a fixed
processing order, `prepare` returns the same sequence for every order in which
the entries of the registry are enumerated; so `generate` assembles the same
table whatever order `range` takes. -/
theorem prepare_enumeration_irrelevant (reg : GoMap) (pkgs : List GoString)
    (hnd : (reg.map Prod.snd).Nodup) :
    (∀ en₁ en₂ : GoMap, en₁.Perm reg → en₂.Perm reg →
      prepare en₁ pkgs = prepare en₂ pkgs) ∧
    (∀ (Exported : GoString → Bool) (universal : Scope)
      (imp : GoString → Except GoError Scope) (order₁ order₂ : GoMap → GoMap)
      (r : Registries), harvest Exported universal imp pkgs = .ok r →
      r.ifaces = reg → (r.funcs.map Prod.snd).Nodup →
      (∀ m, (order₁ m).Perm m) → (∀ m, (order₂ m).Perm m) →
      generate Exported universal imp order₁ pkgs
        = generate Exported universal imp order₂ pkgs) := by
  constructor
  · intro en₁ en₂ h₁ h₂
    rw [prepare_perm_invariant en₁ reg pkgs h₁ hnd, prepare_perm_invariant en₂ reg pkgs h₂ hnd]
  · intro Exported universal imp order₁ order₂ r hr hreg hfun ho₁ ho₂
    unfold generate
    rw [hr]
    simp only []
    rw [prepare_perm_invariant (order₁ r.ifaces) r.ifaces pkgs (ho₁ _) (hreg ▸ hnd),
      prepare_perm_invariant (order₂ r.ifaces) r.ifaces pkgs (ho₂ _) (hreg ▸ hnd),
      prepare_perm_invariant (order₁ r.funcs) r.funcs pkgs (ho₁ _) hfun,
      prepare_perm_invariant (order₂ r.funcs) r.funcs pkgs (ho₂ _) hfun]


theorem prepare_enumeration_irrelevant_witness :
    (sampleRegistries.ifaces.map Prod.snd).Nodup ∧
    ∀ en₁ en₂ : GoMap, en₁.Perm sampleRegistries.ifaces → en₂.Perm sampleRegistries.ifaces →
      prepare en₁ [ascii "io", ascii "os"] = prepare en₂ [ascii "io", ascii "os"] :=
  ⟨by decide,
    (prepare_enumeration_irrelevant sampleRegistries.ifaces [ascii "io", ascii "os"]
      (by decide)).1⟩

/-- C18: the registries after one call of `grabTypes` do not depend on the
order in which the entries of the two extracted maps are visited, the
signatures of a map being pairwise distinct: the lookups are the same, and the
registries have the same entries. -/
theorem grabTypes_order_irrelevant (Exported : GoString → Bool) (r : Registries)
    (path : GoString) (scope scope' : Scope) (all : Bool)
    (hi : scope'.ifs.Perm scope.ifs) (hf : scope'.funs.Perm scope.funs)
    (hki : (scope.ifs.map Prod.fst).Nodup) (hkf : (scope.funs.map Prod.fst).Nodup) :
    (∀ S, mapGet (grabTypes Exported r path scope' all).ifaces S
      = mapGet (grabTypes Exported r path scope all).ifaces S) ∧
    (∀ S, mapGet (grabTypes Exported r path scope' all).funcs S
      = mapGet (grabTypes Exported r path scope all).funcs S) ∧
    ((r.ifaces.map Prod.fst).Nodup →
      (grabTypes Exported r path scope' all).ifaces.Perm
        (grabTypes Exported r path scope all).ifaces) ∧
    ((r.funcs.map Prod.fst).Nodup →
      (grabTypes Exported r path scope' all).funcs.Perm
        (grabTypes Exported r path scope all).funcs) := by
  have l1 := grabLoop_lookup_perm Exported path all scope.ifs scope'.ifs r.ifaces hi hki
  have l2 := grabLoop_lookup_perm Exported path all scope.funs scope'.funs r.funcs hf hkf
  refine ⟨l1, l2, fun hr => ?_, fun hr => ?_⟩
  · exact perm_of_mapGet_eq _ _ (grabLoop_nodupKeys Exported path all scope'.ifs r.ifaces hr)
      (grabLoop_nodupKeys Exported path all scope.ifs r.ifaces hr) l1
  · exact perm_of_mapGet_eq _ _ (grabLoop_nodupKeys Exported path all scope'.funs r.funcs hr)
      (grabLoop_nodupKeys Exported path all scope.funs r.funcs hr) l2


theorem grabTypes_order_irrelevant_witness :
    sampleIo.ifs.reverse.Perm sampleIo.ifs ∧ (sampleIo.ifs.map Prod.fst).Nodup ∧
    (∀ S, mapGet (grabTypes sampleExported { ifaces := [], funcs := [] } (ascii "io")
        { ifs := sampleIo.ifs.reverse, funs := sampleIo.funs } false).ifaces S
      = mapGet (grabTypes sampleExported { ifaces := [], funcs := [] } (ascii "io")
        sampleIo false).ifaces S) :=
  ⟨List.reverse_perm _, by decide,
    (grabTypes_order_irrelevant sampleExported { ifaces := [], funcs := [] } (ascii "io")
      sampleIo { ifs := sampleIo.ifs.reverse, funs := sampleIo.funs } false
      (List.reverse_perm _) (List.Perm.refl _) (by decide) (by decide)).1⟩

/-! ### Facts about failure -/

/-- The package loop fails with `err` iff `err` is what the importer returns
for the first path of the list that is not skipped and does not resolve. -/
theorem harvestPkgs_error_iff (Exported : GoString → Bool)
    (imp : GoString → Except GoError Scope) (pkgs : List GoString) (r : Registries)
    (err : GoError) :
    harvestPkgs Exported imp r pkgs = .error err ↔
      ∃ pre p post, pkgs = pre ++ p :: post ∧ skipped p = false ∧ imp p = .error err ∧
        ∀ q ∈ pre, skipped q = false → ∃ scope, imp q = .ok scope := by
  induction pkgs generalizing r with
  | nil =>
    constructor
    · intro h
      simp [harvestPkgs] at h
    · rintro ⟨pre, p, post, hl, _⟩
      simp at hl
  | cons x xs ih =>
    have later : ∀ r', (∀ q, q = x → skipped q = false → ∃ scope, imp q = .ok scope) →
        (¬ (skipped x = false ∧ imp x = .error err)) →
        (harvestPkgs Exported imp r' xs = .error err ↔
          ∃ pre p post, x :: xs = pre ++ p :: post ∧ skipped p = false ∧
            imp p = .error err ∧ ∀ q ∈ pre, skipped q = false → ∃ scope, imp q = .ok scope) := by
      intro r' hx hnot
      rw [ih r']
      constructor
      · rintro ⟨pre, p, post, hl, hs, hi, hpre⟩
        refine ⟨x :: pre, p, post, by rw [hl, List.cons_append], hs, hi, ?_⟩
        intro q hq hsq
        rcases List.mem_cons.mp hq with h1 | h1
        · exact hx q h1 hsq
        · exact hpre q h1 hsq
      · rintro ⟨pre, p, post, hl, hs, hi, hpre⟩
        rcases List.cons_eq_append_iff.mp hl with ⟨h1, h2⟩ | ⟨pre', h1, h2⟩
        · rw [List.cons.injEq] at h2
          exfalso
          exact hnot ⟨h2.1 ▸ hs, h2.1 ▸ hi⟩
        · refine ⟨pre', p, post, h2, hs, hi, ?_⟩
          intro q hq hsq
          exact hpre q (h1 ▸ List.mem_cons_of_mem _ hq) hsq
    cases hs : skipped x with
    | true =>
      rw [harvestPkgs_cons_skipped _ _ _ _ _ hs]
      apply later r
      · intro q hq hsq
        rw [hq, hs] at hsq
        cases hsq
      · rintro ⟨h1, _⟩
        rw [hs] at h1
        cases h1
    | false =>
      cases hi : imp x with
      | ok scope =>
        rw [harvestPkgs_cons_ok _ _ _ _ _ scope hs hi]
        apply later
        · intro q hq _
          exact ⟨scope, hq ▸ hi⟩
        · rintro ⟨_, h2⟩
          rw [hi] at h2
          cases h2
      | error e =>
        rw [harvestPkgs_cons_error _ _ _ _ _ e hs hi]
        constructor
        · intro h
          have he : e = err := Except.error.inj h
          exact ⟨[], x, xs, rfl, hs, he ▸ hi, fun q hq => absurd hq (List.not_mem_nil q)⟩
        · rintro ⟨pre, p, post, hl, _, hip, hpre⟩
          rcases List.cons_eq_append_iff.mp hl with ⟨h1, h2⟩ | ⟨pre', h1, _⟩
          · rw [List.cons.injEq] at h2
            rw [h2.1, hi] at hip
            rw [Except.error.inj hip]
          · obtain ⟨scope, hsc⟩ := hpre x (h1 ▸ List.mem_cons_self _ _) hs
            rw [hi] at hsc
            cases hsc

theorem generate_error_iff_harvest (Exported : GoString → Bool) (universal : Scope)
    (imp : GoString → Except GoError Scope) (rangeOrder : GoMap → GoMap)
    (pkgs : List GoString) (err : GoError) :
    generate Exported universal imp rangeOrder pkgs = .error err ↔
      harvest Exported universal imp pkgs = .error err := by
  unfold generate
  cases harvest Exported universal imp pkgs with
  | error e => simp
  | ok r => simp

/-! ## Failure: results -/

/-- C11, as the code has it: `generate` returns an error without executing the
template iff some path of the list that is not skipped fails to resolve; the
error is that of the first such path, and nothing is written. When every such
path resolves, the template is executed on the table and `generate` returns
what `tmpl.Execute` returns. -/
theorem generate_error_law (Exported : GoString → Bool) (universal : Scope)
    (imp : GoString → Except GoError Scope) (rangeOrder : GoMap → GoMap)
    (execute : Table → Option GoError) (pkgs : List GoString) :
    (∀ err, generate Exported universal imp rangeOrder pkgs = .error err ↔
      ∃ pre p post, pkgs = pre ++ p :: post ∧ skipped p = false ∧ imp p = .error err ∧
        ∀ q ∈ pre, skipped q = false → ∃ scope, imp q = .ok scope) ∧
    (∀ err, generate Exported universal imp rangeOrder pkgs = .error err →
      generateOutcome Exported universal imp rangeOrder execute pkgs
        = { err := some err, executed := none }) ∧
    ((∃ t, generate Exported universal imp rangeOrder pkgs = .ok t) ↔
      ∀ p ∈ pkgs, skipped p = false → ∃ scope, imp p = .ok scope) ∧
    (∀ t, generate Exported universal imp rangeOrder pkgs = .ok t →
      generateOutcome Exported universal imp rangeOrder execute pkgs
        = { err := execute t, executed := some t }) := by
  have hiff : ∀ err, generate Exported universal imp rangeOrder pkgs = .error err ↔
      ∃ pre p post, pkgs = pre ++ p :: post ∧ skipped p = false ∧ imp p = .error err ∧
        ∀ q ∈ pre, skipped q = false → ∃ scope, imp q = .ok scope := by
    intro err
    rw [generate_error_iff_harvest]
    exact harvestPkgs_error_iff Exported imp pkgs _ err
  refine ⟨hiff, ?_, ?_, ?_⟩
  · intro err h
    unfold generateOutcome
    rw [h]
  · constructor
    · rintro ⟨t, ht⟩ p hp hs
      cases hi : imp p with
      | ok scope => exact ⟨scope, rfl⟩
      | error e =>
        exfalso
        obtain ⟨pre, post, hl⟩ := List.append_of_mem hp
        -- some path of `pre ++ [p]` that is not skipped fails first
        have hfail : ∃ err, generate Exported universal imp rangeOrder pkgs = .error err := by
          cases hg : generate Exported universal imp rangeOrder pkgs with
          | error err => exact ⟨err, rfl⟩
          | ok t' =>
            exfalso
            obtain ⟨r, hr, _⟩ := generate_ok Exported universal imp rangeOrder pkgs t' hg
            unfold harvest at hr
            rw [hl, harvestPkgs_append] at hr
            cases hpre : harvestPkgs Exported imp
                (grabTypes Exported { ifaces := [], funcs := [] } [] universal true) pre with
            | error err => rw [hpre] at hr; cases hr
            | ok m =>
              rw [hpre] at hr
              simp only [] at hr
              rw [harvestPkgs_cons_error _ _ _ _ _ e hs hi] at hr
              cases hr
        obtain ⟨err, herr⟩ := hfail
        rw [ht] at herr
        cases herr
    · intro hall
      cases hg : generate Exported universal imp rangeOrder pkgs with
      | ok t => exact ⟨t, rfl⟩
      | error err =>
        exfalso
        obtain ⟨pre, p, post, hl, hs, hi, _⟩ := (hiff err).mp hg
        obtain ⟨scope, hsc⟩ := hall p (by rw [hl]; simp) hs
        rw [hi] at hsc
        cases hsc
  · intro t h
    unfold generateOutcome
    rw [h]

/-- C11 fails as stated: with every package resolved, `generate` still returns
an error when `tmpl.Execute` does, for instance on a sink that cannot be
written. -/
theorem generate_error_from_execute :
    skipped (ascii "io") = false ∧ sampleImp (ascii "io") = .ok sampleIo ∧
    (generateOutcome sampleExported sampleUniverse sampleImp id
      (fun _ => some (ascii "write failed")) [ascii "io"]).err
        = some (ascii "write failed") ∧
    (generateOutcome sampleExported sampleUniverse sampleImp id
      (fun _ => some (ascii "write failed")) [ascii "io"]).executed
        = some { Pkgs := [ascii "io"]
                 Ifaces := [{ Typ := ascii "Error", Path := ascii "error" },
                            { Typ := ascii "Read", Path := ascii "io.Reader" }]
                 Funcs := [{ Typ := ascii "func()", Path := ascii "io.Thunk" }] } :=
  ⟨by decide, rfl, rfl, rfl⟩

end GenerateStd
